import Mathlib

/-!
Verification of the arghi repository (argument highlighter service).

The development shallowly embeds the Python sources:
  * `arghi/highlight.py`  — sentence splitting, LLM-response reconciliation,
    the highlight orchestrator;
  * `arghi/llm.py`        — credential resolution and the LLM call wrapper;
  * `arghi/schema.py`     — the pydantic data model;
  * `server.py`           — the HTTP handler for POST /api/highlight and the
    file-based persistence keyed by a truncated SHA-256 digest.

Machine-level details are made explicit: 32-bit words are `Nat` with `% 2^32`,
strings are their character lists, fallible code returns `Except`.  The LLM
network call and `json.loads` are external collaborators and are passed in as
explicit function parameters; everything else is translated from the source.
-/

set_option maxRecDepth 100000

namespace Arghi

/- ===================== Sentence splitter (arghi/highlight.py) ============ -/

/-- ASCII whitespace, the characters matched by the regex class `\s` and
stripped by `str.strip` (the model restricts inputs to the ASCII range, where
Python's Unicode-aware classes coincide with this set). -/
def isSpace (c : Char) : Bool :=
  c == ' ' || c == '\t' || c == '\n' || c == '\r' || c == '\x0b' || c == '\x0c'

/-- Terminal sentence punctuation, the regex class `[.!?]`. -/
def isTerminal (c : Char) : Bool :=
  c == '.' || c == '!' || c == '?'

/-- Upper-case ASCII letter, the regex class `[A-Z]`. -/
def isCap (c : Char) : Bool :=
  65 ≤ c.toNat && c.toNat ≤ 90

/-- `text.strip()`: drop leading and trailing whitespace. -/
def stripL (l : List Char) : List Char :=
  ((l.dropWhile isSpace).reverse.dropWhile isSpace).reverse

/-- `re.sub(r'\s+', ' ', text)`: each maximal run of whitespace becomes a
single space.  The replacement space is emitted at the last character of the
run, which makes the recursion structural. -/
def collapse : List Char → List Char
  | [] => []
  | [c] => if isSpace c then [' '] else [c]
  | a :: b :: rest =>
    if isSpace a && isSpace b then collapse (b :: rest)
    else (if isSpace a then ' ' else a) :: collapse (b :: rest)

/-- The whitespace normalization step of `split_sentences`:
`text = re.sub(r'\s+', ' ', text.strip())`. -/
def normalizeL (l : List Char) : List Char :=
  collapse (stripL l)

/-- Does the reversed current fragment end (at the original orientation) in
terminal punctuation?  This is the lookbehind `(?<=[.!?])` of the splitting
regex. -/
def punctHead : List Char → Bool
  | c :: _ => isTerminal c
  | [] => false

/-- The scan of `re.split(r'(?<=[.!?])\s+(?=[A-Z])|(?<=[.!?])$', text)` on
whitespace-normalized text, where every whitespace run is a single space so
`\s+` can only ever match one space.  `cur` holds the current fragment
reversed.  A cut happens when the previously consumed character is terminal
punctuation, the next character is a space and the one after it an upper-case
letter (the separator space is consumed); the zero-width end-of-string
alternative `(?<=[.!?])$` appends an empty final fragment when the last
character is terminal punctuation. -/
def splitRun (cur : List Char) : List Char → List (List Char)
  | a :: b :: rest =>
    if punctHead cur && a == ' ' && isCap b then
      cur.reverse :: splitRun [b] rest
    else splitRun (a :: cur) (b :: rest)
  | [a] => splitRun (a :: cur) []
  | [] => if punctHead cur then [cur.reverse, []] else [cur.reverse]

/-- `split_sentences`, at the level of character lists: normalize whitespace,
split at sentence boundaries, then `[s.strip() for s in sentences if s.strip()]`. -/
def splitSentencesL (text : String) : List (List Char) :=
  ((splitRun [] (normalizeL text.data)).map stripL).filter (· ≠ [])

/-- `split_sentences : str -> list[str]` from `arghi/highlight.py`. -/
def split_sentences (text : String) : List String :=
  (splitSentencesL text).map List.asString

/-- Single-space join of fragments; between any two consecutive fragments
exactly one space.  Used to state reconstruction/idempotence properties. -/
def recon : List (List Char) → List Char
  | [] => []
  | [f] => f
  | f :: f' :: fs => f ++ ' ' :: recon (f' :: fs)

/-- Single-space join at the string level. -/
def joinSpace (l : List String) : String :=
  (recon (l.map String.data)).asString


/- Predicates used to state the splitter's contract. -/

/-- Is the first character absent or not whitespace? -/
def headNotSpace (l : List Char) : Bool :=
  match l with
  | c :: _ => !isSpace c
  | [] => true

/-- Is the last character absent or not whitespace? -/
def lastNotSpace (l : List Char) : Bool := headNotSpace l.reverse

/-- An adjacent sentence boundary right here: terminal punctuation, one space,
an upper-case letter.  On whitespace-normalized text this is exactly what the
splitting regex matches. -/
def adjBoundaryAt (l : List Char) : Bool :=
  match l with
  | p :: s :: c :: _ => isTerminal p && (s == ' ') && isCap c
  | _ => false

/-- Some adjacent sentence boundary occurs in the text. -/
def adjBoundary : List Char → Bool
  | [] => false
  | c :: rest => adjBoundaryAt (c :: rest) || adjBoundary rest

/-- After dropping whitespace, does the text start with an upper-case letter? -/
def capAfterSpaces (l : List Char) : Bool :=
  match l.dropWhile isSpace with
  | c :: _ => isCap c
  | [] => false

/-- At least one whitespace character, then (more whitespace and) an
upper-case letter. -/
def spacesThenCap : List Char → Bool
  | s :: rest => isSpace s && capAfterSpaces rest
  | [] => false

/-- A terminal punctuation mark followed by whitespace and then an upper-case
letter occurs somewhere in the text — the claim's splitting trigger, stated on
the raw (unnormalized) text. -/
def hasBoundary : List Char → Bool
  | [] => false
  | c :: rest => (isTerminal c && spacesThenCap rest) || hasBoundary rest

/-- The claim C7 hypothesis: the text contains no terminal punctuation mark
followed by whitespace-then-capital, nor one at the very end of the string. -/
def hasSplitTrigger (l : List Char) : Bool :=
  hasBoundary l || punctHead l.reverse

/-- The tail part of a single-space join: nothing for no further sentences,
otherwise a separating space and the join of the rest. -/
def joinTail (rs : List (List Char)) : List Char :=
  match rs with
  | [] => []
  | r :: rs2 => ' ' :: recon (r :: rs2)

/- ===================== SHA-256 (hashlib in server.py) =================== -/

def w32 (x : Nat) : Nat := x % 4294967296

def rotr (n x : Nat) : Nat := w32 ((x >>> n) ||| (x <<< (32 - n)))

def shaCh (x y z : Nat) : Nat := (x &&& y) ^^^ ((x ^^^ 4294967295) &&& z)

def shaMaj (x y z : Nat) : Nat := (x &&& y) ^^^ (x &&& z) ^^^ (y &&& z)

def bigSigma0 (x : Nat) : Nat := rotr 2 x ^^^ rotr 13 x ^^^ rotr 22 x

def bigSigma1 (x : Nat) : Nat := rotr 6 x ^^^ rotr 11 x ^^^ rotr 25 x

def smallSigma0 (x : Nat) : Nat := rotr 7 x ^^^ rotr 18 x ^^^ (x >>> 3)

def smallSigma1 (x : Nat) : Nat := rotr 17 x ^^^ rotr 19 x ^^^ (x >>> 10)

/-- The 64 SHA-256 round constants of FIPS 180-4, written in decimal. -/
def shaK : List Nat :=
  [1116352408, 1899447441, 3049323471, 3921009573, 961987163,
   1508970993, 2453635748, 2870763221, 3624381080, 310598401,
   607225278, 1426881987, 1925078388, 2162078206, 2614888103,
   3248222580, 3835390401, 4022224774, 264347078, 604807628,
   770255983, 1249150122, 1555081692, 1996064986, 2554220882,
   2821834349, 2952996808, 3210313671, 3336571891, 3584528711,
   113926993, 338241895, 666307205, 773529912, 1294757372,
   1396182291, 1695183700, 1986661051, 2177026350, 2456956037,
   2730485921, 2820302411, 3259730800, 3345764771, 3516065817,
   3600352804, 4094571909, 275423344, 430227734, 506948616,
   659060556, 883997877, 958139571, 1322822218, 1537002063,
   1747873779, 1955562222, 2024104815, 2227730452, 2361852424,
   2428436474, 2756734187, 3204031479, 3329325298]

/-- The eight SHA-256 initial hash words of FIPS 180-4, in decimal. -/
def shaInitH : List Nat :=
  [1779033703, 3144134277, 1013904242, 2773480762, 1359893119,
   2600822924, 528734635, 1541459225]

def be8 (n : Nat) : List Nat :=
  (List.range 8).map fun i => (n >>> (8 * (7 - i))) &&& 255

def shaPad (msg : List Nat) : List Nat :=
  msg ++ 128 :: List.replicate ((119 - msg.length % 64) % 64) 0 ++ be8 (8 * msg.length)

def chunksGo : Nat → List Nat → List (List Nat)
  | _, [] => []
  | 0, l => [l]
  | fuel + 1, l => l.take 64 :: chunksGo fuel (l.drop 64)

/-- Cut a byte list into 64-byte blocks.  The fuel argument (instantiated with
the list length, an upper bound on the number of blocks) keeps the recursion
structural so that it reduces inside the kernel. -/
def chunks64 (l : List Nat) : List (List Nat) := chunksGo l.length l

def shaSchedule (block : List Nat) : List Nat :=
  let ws16 := (List.range 16).map fun i =>
    (block.getD (4 * i) 0) <<< 24 ||| (block.getD (4 * i + 1) 0) <<< 16 |||
      (block.getD (4 * i + 2) 0) <<< 8 ||| block.getD (4 * i + 3) 0
  (List.range 48).foldl
    (fun ws _ =>
      ws ++ [w32 (smallSigma1 (ws.getD (ws.length - 2) 0) + ws.getD (ws.length - 7) 0 +
        smallSigma0 (ws.getD (ws.length - 15) 0) + ws.getD (ws.length - 16) 0)])
    ws16

def shaCompress (hs : List Nat) (block : List Nat) : List Nat :=
  let ws := shaSchedule block
  let s := (List.range 64).foldl
    (fun st t =>
      match st with
      | [a, b, c, d, e, f, g, h] =>
        let t1 := w32 (h + bigSigma1 e + shaCh e f g + shaK.getD t 0 + ws.getD t 0)
        let t2 := w32 (bigSigma0 a + shaMaj a b c)
        [w32 (t1 + t2), a, b, c, w32 (d + t1), e, f, g]
      | other => other)
    hs
  List.zipWith (fun x y => w32 (x + y)) hs s

def sha256 (msg : List Nat) : List Nat :=
  (chunks64 (shaPad msg)).foldl shaCompress shaInitH

def hexDigit (n : Nat) : Char :=
  if n < 10 then Char.ofNat (48 + n) else Char.ofNat (87 + n)

def hexWord (n : Nat) : List Char :=
  (List.range 8).map fun i => hexDigit ((n >>> (4 * (7 - i))) &&& 15)

def hexdigest (ws : List Nat) : String :=
  ((ws.map hexWord).flatten).asString

def utf8Char (c : Char) : List Nat :=
  let n := c.toNat
  if n < 128 then [n]
  else if n < 2048 then [192 ||| (n >>> 6), 128 ||| (n &&& 63)]
  else if n < 65536 then
    [224 ||| (n >>> 12), 128 ||| ((n >>> 6) &&& 63), 128 ||| (n &&& 63)]
  else
    [240 ||| (n >>> 18), 128 ||| ((n >>> 12) &&& 63), 128 ||| ((n >>> 6) &&& 63),
     128 ||| (n &&& 63)]

def utf8 (s : String) : List Nat := (s.data.map utf8Char).flatten

def queryHash (text question : String) : String :=
  (hexdigest (sha256 (utf8 (text ++ "|" ++ question)))).take 12

/- ===================== Data model (arghi/schema.py) ===================== -/

/-- `SentenceScore` (pydantic model).  The JSON numbers carried by the scorer
response are modeled as rationals; the code never computes with them, it only
passes them through. -/
structure SentenceScore where
  index : Nat
  text : String
  score : Rat
  rationale : Option String
deriving DecidableEq, Repr

/-- `HighlightResponse` (pydantic model).  Note that `arghi/schema.py` declares
exactly the two fields below: the schema has no `hash` field. -/
structure HighlightResponse where
  sentences : List SentenceScore
  question : String
deriving DecidableEq, Repr

/-- `HighlightRequest` (pydantic model). -/
structure HighlightRequest where
  text : String
  question : String
  api_key : Option String
deriving DecidableEq, Repr

/-- The Python exceptions that cross the boundaries the claims talk about. -/
inductive PyExc
  | valueError (msg : String)
  | keyError (key : String)
  | llmNotConfigured (msg : String)
  | llmCallError (msg : String)
deriving DecidableEq, Repr

/- ===================== Relevance scorer (arghi/highlight.py) ============= -/

/-- One element of the parsed `data["scores"]` list: a JSON object whose
relevant keys may each be absent (`none` models a missing key). -/
structure ScoreItem where
  index : Option Int
  score : Option Rat
  rationale : Option String
deriving DecidableEq, Repr

/-- The parsed top-level JSON object; `scores := none` models an object with
no `"scores"` key. -/
structure ParsedData where
  scores : Option (List ScoreItem)
deriving DecidableEq, Repr

/-- `scores_by_index = {item["index"]: item for item in data["scores"]}` read
through `.get(idx, ...)`: in a dict comprehension the last item with a given
key wins. -/
def lookupIndex (items : List ScoreItem) (idx : Int) : Option ScoreItem :=
  (items.filter fun it => it.index == some idx).getLast?

/-- The default dict `{"score": 0.0, "rationale": None}` used when an index is
absent from the mapping. -/
def defaultItem : ScoreItem := ⟨none, some 0, none⟩

/-- Does a score object carry an index inside 1..n?  Used to state that
objects with out-of-range indices are ignored. -/
def idxInRange (n : Nat) (it : ScoreItem) : Bool :=
  match it.index with
  | some v => decide (1 ≤ v ∧ v ≤ (n : Int))
  | none => false

/-- The reconciliation step of `score_sentences`, applied to the parsed JSON:
build `scores_by_index` — raising `KeyError` exactly where Python would, on a
missing top-level `"scores"` key or on a score object missing `"index"` — then
for each sentence `i` take the object at key `i+1` and read its `"score"`
(default 0.0) and `"rationale"` (default None). -/
def scoreSentencesCore (sentences : List String) (data : ParsedData) :
    Except PyExc (List SentenceScore) :=
  match data.scores with
  | none => .error (.keyError "scores")
  | some items =>
    if items.any fun it => it.index.isNone then .error (.keyError "index")
    else .ok <| sentences.enum.map fun p =>
      let it := (lookupIndex items ((p.1 : Int) + 1)).getD defaultItem
      ⟨p.1, p.2, it.score.getD 0, it.rationale⟩

/-- The three-backtick code fence. -/
def fenceMarker : List Char := List.replicate 3 (Char.ofNat 96)

/-- Code-fence stripping in `score_sentences`: on the stripped response, if it
starts with a fence, `re.sub` removes the opening fence with an optional
`json` tag and optional newline, and then a closing fence with an optional
preceding newline from the end. -/
def stripFences (l : List Char) : List Char :=
  if fenceMarker.isPrefixOf l then
    let l1 := l.drop 3
    let l2 := if "json".data.isPrefixOf l1 then l1.drop 4 else l1
    let l3 := match l2 with
      | '\n' :: rest => rest
      | other => other
    if fenceMarker.isSuffixOf l3 then
      let l4 := l3.take (l3.length - 3)
      match l4.getLast? with
      | some '\n' => l4.take (l4.length - 1)
      | _ => l4
    else l3
  else l

/-- The numbered sentence list `"\n".join(f"{i+1}. {s}" for i, s ...)`. -/
def numberedList (sentences : List String) : String :=
  String.intercalate "\n" (sentences.enum.map fun p => toString (p.1 + 1) ++ ". " ++ p.2)

/-- The scoring prompt template of `score_sentences`. -/
def promptFor (question numbered : String) : String :=
  "You are analyzing a text to find parts relevant to a specific question.\n\nQUESTION: "
    ++ question ++ "\n\nTEXT (numbered sentences):\n" ++ numbered ++
    "\n\nFor each sentence, score its relevance to answering the question on a scale of 0.0 to 1.0:\n- 0.0 = completely irrelevant\n- 0.3 = tangentially related\n- 0.5 = somewhat relevant\n- 0.7 = relevant\n- 1.0 = directly answers or is crucial to the question\n\nReturn a JSON object with this exact format:\n\x7b\n  \"scores\": [\n    \x7b\"index\": 1, \"score\": 0.8, \"rationale\": \"brief reason\"\x7d,\n    \x7b\"index\": 2, \"score\": 0.2, \"rationale\": \"brief reason\"\x7d,\n    ...\n  ]\n\x7d\n\nInclude ALL sentences. Be precise with scores - most sentences should be low (0.0-0.3) unless truly relevant.\nReturn ONLY the JSON, no other text."

/- ===================== LLM layer (arghi/llm.py) ========================== -/

/-- An initialized `genai.Client`: Gemini-API-key mode or Vertex mode. -/
inductive LLMClient
  | gemini (apiKey : String)
  | vertex (project : String) (location : String)
deriving DecidableEq, Repr

/-- The process environment, `os.getenv`. -/
def Env : Type := String → Option String

/-- Python truthiness of an `Optional[str]`: `None` and `""` are falsy. -/
def truthy : Option String → Bool
  | some s => s != ""
  | none => false

/-- Python `x or y` on optional strings. -/
def pyOr (a b : Option String) : Option String := if truthy a then a else b

/-- `init_llm_client(api_key, project, location)` from `arghi/llm.py`.  The
request-scoped context variable and `os.getenv` are passed explicitly. -/
def init_llm_client (api_key project location : Option String)
    (requestApiKey : Option String) (env : Env) : Except PyExc LLMClient :=
  if truthy (pyOr api_key (pyOr requestApiKey (env "GEMINI_API_KEY"))) then
    .ok (.gemini ((pyOr api_key (pyOr requestApiKey (env "GEMINI_API_KEY"))).getD ""))
  else if truthy (pyOr project (env "GOOGLE_CLOUD_PROJECT")) then
    .ok (.vertex ((pyOr project (env "GOOGLE_CLOUD_PROJECT")).getD "")
      ((pyOr location (some ((env "GOOGLE_CLOUD_LOCATION").getD "us-central1"))).getD ""))
  else
    .error (.llmNotConfigured
      "No LLM configuration found. Provide a Gemini API key or set GOOGLE_CLOUD_PROJECT.")

/-- The network black box `client.models.generate_content(model, prompt).text`;
`none` or the empty string model a missing or empty `response.text`. -/
def LLMGen : Type := LLMClient → String → String → Option String

/-- `call_llm(prompt, model)` from `arghi/llm.py`. -/
def call_llm (gen : LLMGen) (requestApiKey : Option String) (env : Env)
    (prompt model : String) : Except PyExc String :=
  match init_llm_client none none none requestApiKey env with
  | .error e => .error e
  | .ok client =>
    if truthy (gen client model prompt) then .ok ((gen client model prompt).getD "")
    else .error (.llmCallError "Empty response from LLM")

/-- `json.loads`, an external parser: the parsed value (restricted to the
shapes the code subsequently accesses) or the message of a
`json.JSONDecodeError`. -/
def JsonLoads : Type := String → Except String ParsedData

/-- `score_sentences(sentences, question, model)` from `arghi/highlight.py`. -/
def score_sentences (jsonLoads : JsonLoads) (gen : LLMGen)
    (requestApiKey : Option String) (env : Env)
    (sentences : List String) (question model : String) :
    Except PyExc (List SentenceScore) :=
  match call_llm gen requestApiKey env (promptFor question (numberedList sentences)) model with
  | .error e => .error e
  | .ok response =>
    match jsonLoads ((stripFences (stripL response.data)).asString) with
    | .error e =>
      .error (.valueError ("Failed to parse LLM response as JSON: " ++ e ++
        "\nResponse: " ++ (stripFences (stripL response.data)).asString))
    | .ok data => scoreSentencesCore sentences data

deriving instance DecidableEq for Except

/-- The result of `highlight_text` together with an instrumentation counting
how many times the scorer — and with it `call_llm` — is invoked. -/
structure HighlightTrace where
  result : Except PyExc HighlightResponse
  scorerCalls : Nat
  llmCalls : Nat
deriving DecidableEq, Repr

/-- `highlight_text(text, question, model)` from `arghi/highlight.py`. -/
def highlight_text (jsonLoads : JsonLoads) (gen : LLMGen)
    (requestApiKey : Option String) (env : Env)
    (text question model : String) : HighlightTrace :=
  if split_sentences text = [] then ⟨.ok ⟨[], question⟩, 0, 0⟩
  else
    match score_sentences jsonLoads gen requestApiKey env (split_sentences text)
        question model with
    | .error e => ⟨.error e, 1, 1⟩
    | .ok scored => ⟨.ok ⟨scored, question⟩, 1, 1⟩

/- ===================== HTTP surface (server.py) ========================== -/

/-- The stored query record `{"text": ..., "question": ...}`. -/
structure QueryRecord where
  text : String
  question : String
deriving DecidableEq, Repr

/-- The two persistence directories, `saved/` and `saved-results/`, as maps
from the 12-character hash (the file stem) to the stored JSON record. -/
structure ServerState where
  saved : List (String × QueryRecord)
  savedResults : List (String × HighlightResponse)
deriving DecidableEq, Repr

/-- Write `{hash}.json` into a directory: overwrite the record at that key. -/
def putFile {α : Type} (dir : List (String × α)) (key : String) (v : α) :
    List (String × α) :=
  dir.filter (fun p => p.1 != key) ++ [(key, v)]

/-- Read the record at a key. -/
def getFile {α : Type} (dir : List (String × α)) (key : String) : Option α :=
  ((dir.filter fun p => p.1 == key).getLast?).map Prod.snd

/-- `query_hash` in `save_query`:
`hashlib.sha256(f"{req.text}|{req.question}".encode()).hexdigest()[:12]`. -/
def queryHashOf (text question : String) : String :=
  (((hexdigest (sha256 (utf8 (text ++ "|" ++ question)))).data).take 12).asString

/-- `save_query(req, response)` from `server.py`: both records are written
under the deterministic truncated hash, which is returned. -/
def save_query (st : ServerState) (req : HighlightRequest)
    (resp : HighlightResponse) : ServerState × String :=
  let query_hash := queryHashOf req.text req.question
  (⟨putFile st.saved query_hash ⟨req.text, req.question⟩,
    putFile st.savedResults query_hash resp⟩, query_hash)

/-- `response.hash = query_hash` in the handler.  The pydantic model
`HighlightResponse` (arghi/schema.py) declares only `sentences` and `question`
and no extra-field allowance, and pydantic's `BaseModel.__setattr__` rejects
assignment to an undeclared field, so this statement raises
`ValueError('"HighlightResponse" object has no field "hash"')` on every
execution. -/
def assignHash (_resp : HighlightResponse) (_h : String) :
    Except PyExc HighlightResponse :=
  .error (.valueError "\"HighlightResponse\" object has no field \"hash\"")

/-- The HTTP-visible outcome of one POST /api/highlight request.  An exception
the handler does not catch escapes to the framework, which turns it into a
generic 500 response whose body does not come from the exception. -/
inductive HandlerResult
  | success (body : HighlightResponse)
  | httpError (status : Nat) (detail : String)
  | unhandled (e : PyExc)
deriving DecidableEq, Repr

/-- The request-scoped credential: `api_key = x_api_key or req.api_key`, and
`set_request_api_key(api_key)` is executed only when that value is truthy (the
context variable otherwise keeps its `None` default). -/
def resolveRequestKey (xApiKey bodyKey : Option String) : Option String :=
  let api_key := pyOr xApiKey bodyKey
  if truthy api_key then api_key else none

/-- The POST /api/highlight handler from `server.py`: resolve the
request-scoped key from header and body, run `highlight_text`, map the two
caught exception types to HTTPException statuses, then persist and assign the
hash. -/
def handleHighlight (jsonLoads : JsonLoads) (gen : LLMGen) (env : Env)
    (st : ServerState) (xApiKey : Option String) (req : HighlightRequest) :
    HandlerResult × ServerState :=
  match (highlight_text jsonLoads gen (resolveRequestKey xApiKey req.api_key) env
      req.text req.question "gemini-2.5-flash").result with
  | .error (.llmNotConfigured m) => (.httpError 400 m, st)
  | .error (.llmCallError m) => (.httpError 500 m, st)
  | .error e => (.unhandled e, st)
  | .ok response =>
    match assignHash response (save_query st req response).2 with
    | .error e => (.unhandled e, (save_query st req response).1)
    | .ok response2 => (.success response2, (save_query st req response).1)

/- ========================== Theorems ==================================== -/

/- Concrete checks that the splitter model agrees with the Python behavior on
the spec's own examples. -/

theorem split_sentences_spec_example :
    split_sentences "The sky is blue. Grass is green." =
      ["The sky is blue.", "Grass is green."] := by decide

theorem split_sentences_whitespace_example :
    split_sentences "  \n\t " = [] := by decide

theorem split_sentences_no_terminal_example :
    split_sentences "  hello   world " = ["hello world"] := by decide

theorem split_sentences_lowercase_no_split :
    split_sentences "a. b" = ["a. b"] := by decide

theorem split_sentences_multi_punct :
    split_sentences "What?! Yes." = ["What?!", "Yes."] := by decide

/-- FIPS 180-4 test vector: the model of `hashlib.sha256` is the real hash. -/
theorem sha256_empty_vector :
    hexdigest (sha256 []) =
      "e3b0c44298fc1c149afbf4c8996fb92427ae41e4649b934ca495991b7852b855" := by decide

/-- FIPS 180-4 test vector for "abc". -/
theorem sha256_abc_vector :
    hexdigest (sha256 (utf8 "abc")) =
      "ba7816bf8f01cfea414140de5dae2223b00361a396177a9cb410ff61f20015ad" := by decide


/- Helper lemmas about the digest shape. -/

/-- One step of the SHA-256 compression loop preserves the state length. -/
theorem shaRound_length (ws : List Nat) (st : List Nat) (t : Nat) :
    ((fun st t =>
      match st with
      | [a, b, c, d, e, f, g, h] =>
        let t1 := w32 (h + bigSigma1 e + shaCh e f g + shaK.getD t 0 + ws.getD t 0)
        let t2 := w32 (bigSigma0 a + shaMaj a b c)
        [w32 (t1 + t2), a, b, c, w32 (d + t1), e, f, g]
      | other => other) st t : List Nat).length = st.length := by
  rcases st with _ | ⟨a, _ | ⟨b, _ | ⟨c, _ | ⟨d, _ | ⟨e, _ | ⟨f, _ | ⟨g, _ | ⟨h, _ | ⟨i, tl⟩⟩⟩⟩⟩⟩⟩⟩⟩ <;> rfl

/-- The compression function preserves the eight-word state length. -/
theorem shaCompress_length (hs block : List Nat) :
    (shaCompress hs block).length = hs.length := by
  unfold shaCompress
  have main : ∀ (L : List Nat) (st : List Nat),
      (L.foldl (fun st t =>
        match st with
        | [a, b, c, d, e, f, g, h] =>
          let t1 := w32 (h + bigSigma1 e + shaCh e f g + shaK.getD t 0 +
            (shaSchedule block).getD t 0)
          let t2 := w32 (bigSigma0 a + shaMaj a b c)
          [w32 (t1 + t2), a, b, c, w32 (d + t1), e, f, g]
        | other => other) st).length = st.length := by
    intro L
    induction L with
    | nil => intro st; rfl
    | cons t ts ih =>
      intro st
      rw [List.foldl_cons, ih]
      exact shaRound_length (shaSchedule block) st t
  rw [List.length_zipWith, main, Nat.min_self]

/-- A SHA-256 digest is eight 32-bit words. -/
theorem sha256_length (msg : List Nat) : (sha256 msg).length = 8 := by
  unfold sha256
  have main : ∀ (bs : List (List Nat)) (hs : List Nat), hs.length = 8 →
      (bs.foldl shaCompress hs).length = 8 := by
    intro bs
    induction bs with
    | nil => intro hs h; exact h
    | cons b bs ih =>
      intro hs h
      rw [List.foldl_cons]
      exact ih _ ((shaCompress_length hs b).trans h)
  exact main _ _ rfl

/-- Each digest word prints as eight hex characters. -/
theorem hexWord_length (n : Nat) : (hexWord n).length = 8 := by
  simp [hexWord]

/-- The hex digest of `k` words has `8 * k` characters. -/
theorem hexdigest_data_length (ws : List Nat) :
    (hexdigest ws).data.length = 8 * ws.length := by
  induction ws with
  | nil => rfl
  | cons w ws ih =>
    simp only [hexdigest, List.map_cons, List.flatten_cons, List.asString] at *
    simp only [List.length_append, hexWord_length, List.length_cons]
    omega

/-- Every character of a hex digest is a hexadecimal digit. -/
theorem hexdigest_chars (ws : List Nat) :
    ∀ c ∈ (hexdigest ws).data, c ∈ "0123456789abcdef".data := by
  intro c hc
  simp only [hexdigest, List.asString] at hc
  rw [List.mem_flatten] at hc
  obtain ⟨l, hl, hcl⟩ := hc
  rw [List.mem_map] at hl
  obtain ⟨w, _, rfl⟩ := hl
  simp only [hexWord, List.mem_map, List.mem_range] at hcl
  obtain ⟨i, _, rfl⟩ := hcl
  have hlt : (w >>> (4 * (7 - i))) &&& 15 < 16 :=
    Nat.lt_succ_of_le Nat.and_le_right
  revert hlt
  generalize (w >>> (4 * (7 - i))) &&& 15 = k
  revert k
  decide

/-- Claim C6: the persistence identifier is a pure function of the pair
(text, question): it equals the first 12 hexadecimal characters of the SHA-256
digest of the UTF-8 encoding of `text ++ "|" ++ question`; two calls with
identical text and question yield the identical identifier, and the identifier
always consists of exactly 12 hexadecimal characters. -/
theorem C6_hash_pure_truncated_sha256 (text question : String) :
    queryHashOf text question =
      ((hexdigest (sha256 (utf8 (text ++ "|" ++ question)))).data.take 12).asString ∧
    (∀ t2 q2, t2 = text → q2 = question →
      queryHashOf t2 q2 = queryHashOf text question) ∧
    (queryHashOf text question).length = 12 ∧
    ∀ c ∈ (queryHashOf text question).data, c ∈ "0123456789abcdef".data := by
  refine ⟨rfl, ?_, ?_, ?_⟩
  · intro t2 q2 h1 h2; rw [h1, h2]
  · show (((hexdigest (sha256 (utf8 (text ++ "|" ++ question)))).data).take 12).length = 12
    rw [List.length_take, hexdigest_data_length, sha256_length]
    decide
  · intro c hc
    have hc2 : c ∈ ((hexdigest (sha256 (utf8 (text ++ "|" ++ question)))).data).take 12 := hc
    exact hexdigest_chars _ c (List.Sublist.mem hc2 (List.take_sublist _ _))

/-- Witness for C6 at concrete inputs, together with the concrete value of
the identifier, cross-checked against CPython's hashlib. -/
theorem C6_hash_witness :
    queryHashOf "The sky is blue." "Why?" = queryHashOf "The sky is blue." "Why?" ∧
    (queryHashOf "The sky is blue." "Why?").length = 12 ∧
    queryHashOf "The sky is blue." "Why?" = "d7b507ae418e" :=
  ⟨(C6_hash_pure_truncated_sha256 "The sky is blue." "Why?").2.1 _ _ rfl rfl,
   (C6_hash_pure_truncated_sha256 "The sky is blue." "Why?").2.2.1,
   by decide⟩

/-- Claim C10: for some successfully JSON-parsed LLM responses the advertised
tolerance does not apply: a parsed object without a top-level `"scores"` key,
or a scores element without an `"index"` key, makes `score_sentences` raise a
KeyError, which no layer catches — it escapes the HTTP handler unhandled
instead of being defaulted or reported as a typed parse failure. -/
theorem C10_keyerror_unguarded :
    scoreSentencesCore ["s"] ⟨none⟩ = .error (.keyError "scores") ∧
    scoreSentencesCore ["s"] ⟨some [⟨none, some 1, none⟩]⟩ =
      .error (.keyError "index") ∧
    (handleHighlight (fun _ => .ok ⟨none⟩) (fun _ _ _ => some "{}")
        (fun _ => some "k") ⟨[], []⟩ none ⟨"s.", "q", none⟩).1 =
      .unhandled (.keyError "scores") ∧
    (handleHighlight (fun _ => .ok ⟨some [⟨none, some 1, none⟩]⟩)
        (fun _ _ _ => some "x") (fun _ => some "k") ⟨[], []⟩ none
        ⟨"s.", "q", none⟩).1 =
      .unhandled (.keyError "index") :=
  ⟨by decide, by decide, by decide, by decide⟩

/-- Claim C1 (evaluation of the code at the failing input): with an LLM that
returns a well-formed scores object for the request
(text = "The sky is blue.", question = "Why?"), the handler persists the query
record and the result record under the 12-character hash d7b507ae418e, but the
following `response.hash = query_hash` raises an uncaught ValueError because
the `HighlightResponse` schema has no `hash` field — so the call never returns
a successful payload at all, let alone one carrying the hash. -/
theorem C1_hash_assignment_fails :
    (handleHighlight (fun _ => .ok ⟨some [⟨some 1, some 1, some "hi"⟩]⟩)
        (fun _ _ _ => some "x") (fun _ => some "k") ⟨[], []⟩ none
        ⟨"The sky is blue.", "Why?", none⟩).1 =
      .unhandled (.valueError "\"HighlightResponse\" object has no field \"hash\"") ∧
    getFile (handleHighlight (fun _ => .ok ⟨some [⟨some 1, some 1, some "hi"⟩]⟩)
        (fun _ _ _ => some "x") (fun _ => some "k") ⟨[], []⟩ none
        ⟨"The sky is blue.", "Why?", none⟩).2.saved (queryHashOf "The sky is blue." "Why?") =
      some ⟨"The sky is blue.", "Why?"⟩ ∧
    getFile (handleHighlight (fun _ => .ok ⟨some [⟨some 1, some 1, some "hi"⟩]⟩)
        (fun _ _ _ => some "x") (fun _ => some "k") ⟨[], []⟩ none
        ⟨"The sky is blue.", "Why?", none⟩).2.savedResults (queryHashOf "The sky is blue." "Why?") =
      some ⟨[⟨0, "The sky is blue.", 1, some "hi"⟩], "Why?"⟩ ∧
    ∀ body : HighlightResponse,
      (handleHighlight (fun _ => .ok ⟨some [⟨some 1, some 1, some "hi"⟩]⟩)
          (fun _ _ _ => some "x") (fun _ => some "k") ⟨[], []⟩ none
          ⟨"The sky is blue.", "Why?", none⟩).1 ≠ .success body := by
  refine ⟨by decide, by decide, by decide, ?_⟩
  intro body h
  rw [show (handleHighlight (fun _ => .ok ⟨some [⟨some 1, some 1, some "hi"⟩]⟩)
      (fun _ _ _ => some "x") (fun _ => some "k") ⟨[], []⟩ none
      ⟨"The sky is blue.", "Why?", none⟩).1 =
      .unhandled (.valueError "\"HighlightResponse\" object has no field \"hash\"")
    from by decide] at h
  exact HandlerResult.noConfusion h


/-- Claim C3: whenever the splitter yields zero sentences — in particular for
every whitespace-only text — `highlight_text` returns the empty response with
the question preserved and invokes neither the scorer nor the LLM call
(the result does not depend on the LLM oracle and both invocation counters
stay at zero). -/
theorem C3_empty_split_short_circuits :
    (∀ (jsonLoads : JsonLoads) (gen : LLMGen) (requestApiKey : Option String)
        (env : Env) (text question model : String),
      split_sentences text = [] →
      highlight_text jsonLoads gen requestApiKey env text question model =
        ⟨.ok ⟨[], question⟩, 0, 0⟩) ∧
    ∀ text : String, (∀ c ∈ text.data, isSpace c = true) →
      split_sentences text = [] := by
  constructor
  · intro jl gen rk env text q m h
    unfold highlight_text
    rw [h]
    rfl
  · intro text h
    have hdrop : text.data.dropWhile isSpace = [] :=
      List.dropWhile_eq_nil_iff.mpr h
    unfold split_sentences splitSentencesL normalizeL stripL
    rw [hdrop]
    rfl

/-- Witness for C3: a whitespace-only input, a dummy LLM oracle. -/
theorem C3_witness :
    highlight_text (fun _ => .error "e") (fun _ _ _ => none) none (fun _ => none)
        " \n\t " "q" "m" = ⟨.ok ⟨[], "q"⟩, 0, 0⟩ ∧
    split_sentences " \n\t " = [] :=
  ⟨C3_empty_split_short_circuits.1 _ _ _ _ _ _ _
      (C3_empty_split_short_circuits.2 " \n\t " (by decide)),
   C3_empty_split_short_circuits.2 " \n\t " (by decide)⟩

/-- A successful reconciliation is exactly the enumeration map over the split
sentences. -/
theorem scoreSentencesCore_ok_shape (sentences : List String) (data : ParsedData)
    (out : List SentenceScore)
    (h : scoreSentencesCore sentences data = .ok out) :
    ∃ items, data.scores = some items ∧
      out = sentences.enum.map fun p =>
        let it := (lookupIndex items ((p.1 : Int) + 1)).getD defaultItem
        ⟨p.1, p.2, it.score.getD 0, it.rationale⟩ := by
  unfold scoreSentencesCore at h
  split at h
  · exact absurd h (by simp)
  · next items heq =>
    split at h
    · exact absurd h (by simp)
    · injection h with h
      exact ⟨items, heq, h.symm⟩

/-- A successful `score_sentences` comes from a successful reconciliation of
some parsed data. -/
theorem score_sentences_ok_shape (jsonLoads : JsonLoads) (gen : LLMGen)
    (requestApiKey : Option String) (env : Env) (sentences : List String)
    (question model : String) (out : List SentenceScore)
    (h : score_sentences jsonLoads gen requestApiKey env sentences question model = .ok out) :
    ∃ data, scoreSentencesCore sentences data = .ok out := by
  unfold score_sentences at h
  split at h
  · exact absurd h (by simp)
  · split at h
    · exact absurd h (by simp)
    · next data heq => exact ⟨data, h⟩

/-- Claim C4: whenever `highlight_text` produces a response, it contains
exactly as many SentenceScore entries as the splitter produces sentences, the
sequence is empty iff the splitter produced no sentences, and each entry's
index equals its zero-based position. -/
theorem C4_response_matches_split (jsonLoads : JsonLoads) (gen : LLMGen)
    (requestApiKey : Option String) (env : Env) (text question model : String)
    (resp : HighlightResponse)
    (h : (highlight_text jsonLoads gen requestApiKey env text question model).result
      = .ok resp) :
    resp.sentences.length = (split_sentences text).length ∧
    (resp.sentences = [] ↔ split_sentences text = []) ∧
    ∀ (i : Nat) (hi : i < resp.sentences.length),
      (resp.sentences.get ⟨i, hi⟩).index = i := by
  unfold highlight_text at h
  by_cases hs : split_sentences text = []
  · rw [hs] at h
    simp only [if_pos rfl] at h
    injection h with h
    rw [← h, hs]
    refine ⟨rfl, by simp, ?_⟩
    intro i hi
    simp at hi
  · rw [if_neg hs] at h
    cases hsc : score_sentences jsonLoads gen requestApiKey env
        (split_sentences text) question model with
    | error e => rw [hsc] at h; exact absurd h (by simp)
    | ok scored =>
      rw [hsc] at h
      simp only [Except.ok.injEq] at h
      obtain ⟨data, hcore⟩ := score_sentences_ok_shape _ _ _ _ _ _ _ _ hsc
      obtain ⟨items, _, hshape⟩ := scoreSentencesCore_ok_shape _ _ _ hcore
      have hsent : resp.sentences = scored := by rw [← h]
      have hlen : resp.sentences.length = (split_sentences text).length := by
        rw [hsent, hshape, List.length_map, List.enum_length]
      refine ⟨hlen, ?_, ?_⟩
      · constructor
        · intro he
          rw [he] at hlen
          exact absurd (List.length_eq_zero.mp hlen.symm) hs
        · intro he; exact absurd he hs
      · intro i hi
        rw [List.get_eq_getElem]
        simp only [hsent, hshape, List.getElem_map, List.getElem_enum]

/-- Witness for C4: a one-sentence text and an LLM output parsed to an empty
scores list. -/
theorem C4_witness :
    ([⟨0, "Hi.", 0, none⟩] : List SentenceScore).length =
      (split_sentences "Hi.").length ∧
    (([⟨0, "Hi.", 0, none⟩] : List SentenceScore) = [] ↔
      split_sentences "Hi." = []) ∧
    ∀ (i : Nat) (hi : i < ([⟨0, "Hi.", 0, none⟩] : List SentenceScore).length),
      (([⟨0, "Hi.", 0, none⟩] : List SentenceScore).get ⟨i, hi⟩).index = i :=
  C4_response_matches_split (fun _ => .ok ⟨some []⟩) (fun _ _ _ => some "x") none
    (fun _ => some "k") "Hi." "q" "m" ⟨[⟨0, "Hi.", 0, none⟩], "q"⟩ (by decide)


/-- With pairwise-distinct indices, filtering for a given index keeps exactly
the one matching item. -/
theorem filter_index_singleton (items : List ScoreItem) (v : Int)
    (hnodup : items.Pairwise fun a b => a.index ≠ b.index)
    (it : ScoreItem) (hmem : it ∈ items) (hit : it.index = some v) :
    (items.filter fun x => x.index == some v) = [it] := by
  induction items with
  | nil => cases hmem
  | cons a rest ih =>
    rw [List.pairwise_cons] at hnodup
    rcases List.mem_cons.mp hmem with rfl | hmem2
    · rw [List.filter_cons_of_pos (by simp [hit])]
      rw [List.filter_eq_nil_iff.mpr]
      intro x hx
      have : it.index ≠ x.index := hnodup.1 x hx
      simp only [beq_iff_eq]
      rw [← hit]
      exact fun hcontra => this hcontra.symm
    · have hne : a.index ≠ some v := by
        rw [← hit]; exact hnodup.1 it hmem2
      rw [List.filter_cons_of_neg (by simp [hne])]
      exact ih hnodup.2 hmem2

/-- The dict lookup finds the unique matching item. -/
theorem lookupIndex_of_mem (items : List ScoreItem) (v : Int)
    (hnodup : items.Pairwise fun a b => a.index ≠ b.index)
    (it : ScoreItem) (hmem : it ∈ items) (hit : it.index = some v) :
    lookupIndex items v = some it := by
  unfold lookupIndex
  rw [filter_index_singleton items v hnodup it hmem hit]
  rfl

/-- The dict lookup misses when no item has the index. -/
theorem lookupIndex_of_not_mem (items : List ScoreItem) (v : Int)
    (h : ∀ it ∈ items, it.index ≠ some v) :
    lookupIndex items v = none := by
  unfold lookupIndex
  rw [List.filter_eq_nil_iff.mpr]
  · rfl
  · intro x hx
    simp only [beq_iff_eq]
    exact h x hx

/-- Under pairwise-distinct indices, the dict lookup is invariant under
permutation of the scores list. -/
theorem lookupIndex_perm (items items' : List ScoreItem) (v : Int)
    (hnodup : items.Pairwise fun a b => a.index ≠ b.index)
    (hperm : items.Perm items') :
    lookupIndex items' v = lookupIndex items v := by
  have hnodup' : items'.Pairwise fun a b => a.index ≠ b.index :=
    hnodup.perm hperm fun hr => hr.symm
  by_cases hex : ∃ it ∈ items, it.index = some v
  · obtain ⟨it, hmem, hit⟩ := hex
    rw [lookupIndex_of_mem items v hnodup it hmem hit,
      lookupIndex_of_mem items' v hnodup' it (hperm.subset hmem) hit]
  · push_neg at hex
    rw [lookupIndex_of_not_mem items v hex,
      lookupIndex_of_not_mem items' v fun it hmem => hex it (hperm.symm.subset hmem)]

/-- Dropping the out-of-range items does not change a lookup at an in-range
index. -/
theorem lookupIndex_filter_inRange (items : List ScoreItem) (n : Nat) (v : Int)
    (h1 : 1 ≤ v) (h2 : v ≤ (n : Int)) :
    lookupIndex (items.filter (idxInRange n)) v = lookupIndex items v := by
  unfold lookupIndex
  rw [List.filter_filter]
  congr 1
  apply List.filter_congr
  intro x _
  cases hx : x.index == some v with
  | false => rfl
  | true =>
    have : x.index = some v := by
      have := hx
      simp only [beq_iff_eq] at this
      exact this
    simp [idxInRange, this, h1, h2]

/-- Claim C2: for every sentence list and every parsed scorer response whose
objects all carry an index field (and, as the claim's definite article "the
response object with index i+1" presupposes, no index is borne by two
objects), reconciliation succeeds with exactly one SentenceScore per sentence
in original order; position i takes score and rationale from the object with
index i+1 — score defaulting to 0.0 when that object lacks a score field —
and defaults to score 0.0 with no rationale when no object has index i+1;
objects with indices outside 1..N are ignored; and the order of the scores
list is irrelevant. -/
theorem C2_reconciliation (sentences : List String) (items : List ScoreItem)
    (out : List SentenceScore)
    (hidx : ∀ it ∈ items, it.index.isSome = true)
    (hnodup : items.Pairwise fun a b => a.index ≠ b.index)
    (hout : scoreSentencesCore sentences ⟨some items⟩ = .ok out) :
    out.length = sentences.length ∧
    (∀ (i : Nat) (hi : i < sentences.length), ∃ s : SentenceScore,
      out[i]? = some s ∧ s.index = i ∧ s.text = sentences.get ⟨i, hi⟩ ∧
      (∀ it ∈ items, it.index = some ((i : Int) + 1) →
        s.score = it.score.getD 0 ∧ s.rationale = it.rationale) ∧
      ((∀ it ∈ items, it.index ≠ some ((i : Int) + 1)) →
        s.score = 0 ∧ s.rationale = none)) ∧
    (∀ items' : List ScoreItem, items.Perm items' →
      scoreSentencesCore sentences ⟨some items'⟩ = .ok out) ∧
    scoreSentencesCore sentences
      ⟨some (items.filter (idxInRange sentences.length))⟩ = .ok out := by
  obtain ⟨items0, heq, hshape⟩ := scoreSentencesCore_ok_shape _ _ _ hout
  have heq2 : items = items0 := Option.some.inj heq
  subst heq2
  have hanyfalse : ∀ (js : List ScoreItem), (∀ it ∈ js, it ∈ items) →
      (js.any fun it => it.index.isNone) = false := by
    intro js hsub
    rw [List.any_eq_false]
    intro x hx
    have := hidx x (hsub x hx)
    simp [Option.isNone_iff_eq_none]
    exact Option.isSome_iff_ne_none.mp this
  have hcore : ∀ (js : List ScoreItem),
      (js.any fun it => it.index.isNone) = false →
      scoreSentencesCore sentences ⟨some js⟩ =
        .ok (sentences.enum.map fun p =>
          let it := (lookupIndex js ((p.1 : Int) + 1)).getD defaultItem
          ⟨p.1, p.2, it.score.getD 0, it.rationale⟩) := by
    intro js hany
    unfold scoreSentencesCore
    simp only [hany]
    rfl
  refine ⟨?_, ?_, ?_, ?_⟩
  · rw [hshape, List.length_map, List.enum_length]
  · intro i hi
    refine ⟨(fun p : Nat × String =>
      let it := (lookupIndex items ((p.1 : Int) + 1)).getD defaultItem
      (⟨p.1, p.2, it.score.getD 0, it.rationale⟩ : SentenceScore)) (i, sentences.get ⟨i, hi⟩),
      ?_, rfl, rfl, ?_, ?_⟩
    · rw [hshape, List.getElem?_map]
      have henum : sentences.enum[i]? = some (i, sentences[i]) := by simp [hi]
      rw [henum]
      rfl
    · intro it hmem hit
      dsimp only
      rw [lookupIndex_of_mem items _ hnodup it hmem hit]
      exact ⟨rfl, rfl⟩
    · intro habs
      dsimp only
      rw [lookupIndex_of_not_mem items _ habs]
      exact ⟨rfl, rfl⟩
  · intro items' hperm
    rw [hcore items' (hanyfalse items' fun it hmem => hperm.symm.subset hmem), hshape]
    congr 1
    apply List.map_congr_left
    intro p _
    simp only [lookupIndex_perm items items' ((p.1 : Int) + 1) hnodup hperm]
  · rw [hcore (items.filter (idxInRange sentences.length))
      (hanyfalse _ fun it hmem => (List.mem_filter.mp hmem).1), hshape]
    congr 1
    apply List.map_congr_left
    intro p hp
    have hlt : p.1 < sentences.length := by
      rcases p with ⟨i, x⟩
      have := List.mk_mem_enum_iff_getElem?.mp hp
      have := List.getElem?_eq_some.mp this
      exact this.1
    have h1 : (1 : Int) ≤ (p.1 : Int) + 1 := by omega
    have h2 : (p.1 : Int) + 1 ≤ (sentences.length : Int) := by
      omega
    simp only [lookupIndex_filter_inRange items sentences.length ((p.1 : Int) + 1) h1 h2]

/-- Witness for C2 at a concrete response: two sentences, one score object
with index 2 and no object for index 1. -/
theorem C2_witness :
    ([⟨0, "a", 0, none⟩, ⟨1, "b", 1, some "r"⟩] : List SentenceScore).length =
      (["a", "b"] : List String).length ∧
    (∀ (i : Nat) (hi : i < (["a", "b"] : List String).length), ∃ s : SentenceScore,
      ([⟨0, "a", 0, none⟩, ⟨1, "b", 1, some "r"⟩] : List SentenceScore)[i]? = some s ∧
      s.index = i ∧ s.text = (["a", "b"] : List String).get ⟨i, hi⟩ ∧
      (∀ it ∈ ([⟨some 2, some 1, some "r"⟩] : List ScoreItem),
        it.index = some ((i : Int) + 1) →
        s.score = it.score.getD 0 ∧ s.rationale = it.rationale) ∧
      ((∀ it ∈ ([⟨some 2, some 1, some "r"⟩] : List ScoreItem),
        it.index ≠ some ((i : Int) + 1)) →
        s.score = 0 ∧ s.rationale = none)) ∧
    (∀ items' : List ScoreItem,
      ([⟨some 2, some 1, some "r"⟩] : List ScoreItem).Perm items' →
      scoreSentencesCore ["a", "b"] ⟨some items'⟩ =
        .ok [⟨0, "a", 0, none⟩, ⟨1, "b", 1, some "r"⟩]) ∧
    scoreSentencesCore ["a", "b"]
      ⟨some (([⟨some 2, some 1, some "r"⟩] : List ScoreItem).filter
        (idxInRange (["a", "b"] : List String).length))⟩ =
      .ok [⟨0, "a", 0, none⟩, ⟨1, "b", 1, some "r"⟩] :=
  C2_reconciliation ["a", "b"] [⟨some 2, some 1, some "r"⟩]
    [⟨0, "a", 0, none⟩, ⟨1, "b", 1, some "r"⟩]
    (by decide) (by decide) (by decide)


/- Truthiness helpers. -/

theorem truthy_none : truthy none = false := rfl

theorem truthy_some_of_ne (k : String) (h : k ≠ "") : truthy (some k) = true := by
  simp [truthy, h]

theorem pyOr_of_falsy (a b : Option String) (h : truthy a = false) : pyOr a b = b := by
  simp [pyOr, h]

theorem pyOr_of_truthy (a b : Option String) (h : truthy a = true) : pyOr a b = a := by
  simp [pyOr, h]

/-- Claim C9: the LLM credential is resolved in the fixed order — explicit
per-call override, then the request-scoped credential (which the handler sets
from the X-API-Key header or the api_key body field, header first), then the
environment API key, then the environment cloud-project/location pair — and
when none resolves, the call fails with the configuration error that the
handler surfaces as HTTP 400. -/
theorem C9_credential_resolution :
    (∀ (k : String) (project location reqKey : Option String) (env : Env),
      k ≠ "" →
      init_llm_client (some k) project location reqKey env = .ok (.gemini k)) ∧
    (∀ (api_key project location : Option String) (env : Env) (k : String),
      truthy api_key = false → k ≠ "" →
      init_llm_client api_key project location (some k) env = .ok (.gemini k)) ∧
    (∀ (api_key reqKey project location : Option String) (env : Env) (k : String),
      truthy api_key = false → truthy reqKey = false →
      env "GEMINI_API_KEY" = some k → k ≠ "" →
      init_llm_client api_key project location reqKey env = .ok (.gemini k)) ∧
    (∀ (api_key reqKey : Option String) (env : Env) (p : String),
      truthy api_key = false → truthy reqKey = false →
      truthy (env "GEMINI_API_KEY") = false →
      env "GOOGLE_CLOUD_PROJECT" = some p → p ≠ "" →
      init_llm_client api_key none none reqKey env =
        .ok (.vertex p ((env "GOOGLE_CLOUD_LOCATION").getD "us-central1"))) ∧
    (∀ (api_key reqKey : Option String) (env : Env),
      truthy api_key = false → truthy reqKey = false →
      truthy (env "GEMINI_API_KEY") = false →
      truthy (env "GOOGLE_CLOUD_PROJECT") = false →
      init_llm_client api_key none none reqKey env = .error (.llmNotConfigured
        "No LLM configuration found. Provide a Gemini API key or set GOOGLE_CLOUD_PROJECT.")) ∧
    (∀ (x b : Option String),
      (truthy x = true → resolveRequestKey x b = x) ∧
      (truthy x = false → resolveRequestKey x b = if truthy b then b else none)) ∧
    (∀ (jsonLoads : JsonLoads) (gen : LLMGen) (env : Env) (st : ServerState)
        (x : Option String) (req : HighlightRequest),
      split_sentences req.text ≠ [] →
      truthy x = false → truthy req.api_key = false →
      truthy (env "GEMINI_API_KEY") = false →
      truthy (env "GOOGLE_CLOUD_PROJECT") = false →
      handleHighlight jsonLoads gen env st x req = (.httpError 400
        "No LLM configuration found. Provide a Gemini API key or set GOOGLE_CLOUD_PROJECT.", st)) := by
  have hnotcfg : ∀ (reqKey : Option String) (env : Env), truthy reqKey = false →
      truthy (env "GEMINI_API_KEY") = false →
      truthy (env "GOOGLE_CLOUD_PROJECT") = false →
      init_llm_client none none none reqKey env = .error (.llmNotConfigured
        "No LLM configuration found. Provide a Gemini API key or set GOOGLE_CLOUD_PROJECT.") := by
    intro reqKey env hr hg hp
    unfold init_llm_client
    rw [pyOr_of_falsy _ _ truthy_none, pyOr_of_falsy _ _ hr,
      pyOr_of_falsy _ _ truthy_none]
    simp [hg, hp]
  refine ⟨?_, ?_, ?_, ?_, ?_, ?_, ?_⟩
  · intro k project location reqKey env hk
    unfold init_llm_client
    rw [pyOr_of_truthy _ _ (truthy_some_of_ne k hk)]
    simp [truthy_some_of_ne k hk]
  · intro api_key project location env k ha hk
    unfold init_llm_client
    rw [pyOr_of_falsy _ _ ha, pyOr_of_truthy _ _ (truthy_some_of_ne k hk)]
    simp [truthy_some_of_ne k hk]
  · intro api_key reqKey project location env k ha hr hgek hk
    unfold init_llm_client
    rw [pyOr_of_falsy _ _ ha, pyOr_of_falsy _ _ hr, hgek]
    simp [truthy_some_of_ne k hk]
  · intro api_key reqKey env p ha hr hg hpp hp
    unfold init_llm_client
    rw [pyOr_of_falsy _ _ ha, pyOr_of_falsy _ _ hr,
      pyOr_of_falsy _ _ truthy_none, pyOr_of_falsy _ _ truthy_none, hpp]
    simp [hg, truthy_some_of_ne p hp]
  · intro api_key reqKey env ha hr hg hp
    unfold init_llm_client
    rw [pyOr_of_falsy _ _ ha, pyOr_of_falsy _ _ hr,
      pyOr_of_falsy _ _ truthy_none]
    simp [hg, hp]
  · intro x b
    constructor
    · intro hx
      unfold resolveRequestKey
      rw [pyOr_of_truthy _ _ hx]
      simp [hx]
    · intro hx
      unfold resolveRequestKey
      rw [pyOr_of_falsy _ _ hx]
  · intro jl gen env st x req hsplit hx hb hg hp
    have hkey : resolveRequestKey x req.api_key = none := by
      unfold resolveRequestKey
      rw [pyOr_of_falsy _ _ hx]
      simp [hb]
    have hinit := hnotcfg none env truthy_none hg hp
    have hscore : score_sentences jl gen none env (split_sentences req.text)
        req.question "gemini-2.5-flash" = .error (.llmNotConfigured
        "No LLM configuration found. Provide a Gemini API key or set GOOGLE_CLOUD_PROJECT.") := by
      unfold score_sentences call_llm
      rw [hinit]
    have hht : (highlight_text jl gen none env req.text req.question
        "gemini-2.5-flash").result = .error (.llmNotConfigured
        "No LLM configuration found. Provide a Gemini API key or set GOOGLE_CLOUD_PROJECT.") := by
      unfold highlight_text
      rw [if_neg hsplit, hscore]
    unfold handleHighlight
    rw [hkey, hht]

/-- Witness for C9: each resolution step exercised at concrete credentials,
and a fully unconfigured request answered with 400. -/
theorem C9_witness :
    init_llm_client (some "k1") none none (some "k2") (fun _ => some "k3") =
      .ok (.gemini "k1") ∧
    init_llm_client none none none (some "k2") (fun _ => some "k3") =
      .ok (.gemini "k2") ∧
    init_llm_client none none none none (fun _ => some "k3") =
      .ok (.gemini "k3") ∧
    init_llm_client none none none none
        (fun k => if k == "GOOGLE_CLOUD_PROJECT" then some "proj" else none) =
      .ok (.vertex "proj" "us-central1") ∧
    init_llm_client none none none none (fun _ => none) = .error (.llmNotConfigured
      "No LLM configuration found. Provide a Gemini API key or set GOOGLE_CLOUD_PROJECT.") ∧
    resolveRequestKey (some "hdr") (some "body") = some "hdr" ∧
    resolveRequestKey none (some "body") = some "body" ∧
    handleHighlight (fun _ => .error "e") (fun _ _ _ => none) (fun _ => none)
        ⟨[], []⟩ none ⟨"Hi.", "q", none⟩ = (.httpError 400
      "No LLM configuration found. Provide a Gemini API key or set GOOGLE_CLOUD_PROJECT.",
      ⟨[], []⟩) :=
  ⟨C9_credential_resolution.1 "k1" none none (some "k2") _ (by decide),
   C9_credential_resolution.2.1 none none none _ "k2" (by decide) (by decide),
   C9_credential_resolution.2.2.1 none none none none _ "k3" (by decide) (by decide)
     rfl (by decide),
   C9_credential_resolution.2.2.2.1 none none _ "proj" (by decide) (by decide)
     (by decide) rfl (by decide),
   C9_credential_resolution.2.2.2.2.1 none none _ (by decide) (by decide) (by decide)
     (by decide),
   (C9_credential_resolution.2.2.2.2.2.1 (some "hdr") (some "body")).1 (by decide),
   (C9_credential_resolution.2.2.2.2.2.1 none (some "body")).2 (by decide),
   C9_credential_resolution.2.2.2.2.2.2 _ _ _ ⟨[], []⟩ none ⟨"Hi.", "q", none⟩
     (by decide) (by decide) (by decide) (by decide) (by decide)⟩

/-- Claim C5 (counterexample): a non-JSON LLM response does not produce an
HTTPException with status 500 carrying the offending text — the ValueError is
not caught by the handler at all. -/
theorem C5_counterexample :
    (handleHighlight (fun _ => .error "Expecting value: line 1 column 1 (char 0)")
        (fun _ _ _ => some "not json") (fun _ => some "k") ⟨[], []⟩ none
        ⟨"Hello.", "q", none⟩).1 =
      .unhandled (.valueError
        "Failed to parse LLM response as JSON: Expecting value: line 1 column 1 (char 0)\nResponse: not json") ∧
    ¬ ∃ detail,
      (handleHighlight (fun _ => .error "Expecting value: line 1 column 1 (char 0)")
          (fun _ _ _ => some "not json") (fun _ => some "k") ⟨[], []⟩ none
          ⟨"Hello.", "q", none⟩).1 = .httpError 500 detail := by
  refine ⟨by decide, ?_⟩
  rintro ⟨d, hd⟩
  rw [show (handleHighlight (fun _ => .error "Expecting value: line 1 column 1 (char 0)")
      (fun _ _ _ => some "not json") (fun _ => some "k") ⟨[], []⟩ none
      ⟨"Hello.", "q", none⟩).1 =
      .unhandled (.valueError
        "Failed to parse LLM response as JSON: Expecting value: line 1 column 1 (char 0)\nResponse: not json")
    from by decide] at hd
  exact HandlerResult.noConfusion hd

/-- Claim C5 (amended): an LLM response that fails to parse as JSON makes the
scorer raise `ValueError` with the raw offending text (after whitespace trim
and code-fence stripping) embedded in its message, but the handler catches
only the two LLM exception types, so the ValueError escapes unhandled — the
framework's resulting generic 500 carries no error-detail string with the
text; the text appears only in the escaped exception's message. -/
theorem C5_amended_parse_failure_escapes
    (jsonLoads : JsonLoads) (gen : LLMGen) (env : Env) (st : ServerState)
    (x : Option String) (req : HighlightRequest) (raw e : String)
    (client : LLMClient)
    (hsplit : split_sentences req.text ≠ [])
    (hinit : init_llm_client none none none (resolveRequestKey x req.api_key) env =
      .ok client)
    (hgen : ∀ c m p, gen c m p = some raw)
    (hraw : raw ≠ "")
    (hparse : jsonLoads ((stripFences (stripL raw.data)).asString) = .error e) :
    handleHighlight jsonLoads gen env st x req =
      (.unhandled (.valueError ("Failed to parse LLM response as JSON: " ++ e ++
        "\nResponse: " ++ (stripFences (stripL raw.data)).asString)), st) ∧
    ((stripFences (stripL raw.data)).asString).data <:+:
      ("Failed to parse LLM response as JSON: " ++ e ++ "\nResponse: " ++
        (stripFences (stripL raw.data)).asString).data := by
  have hcall : ∀ prompt model,
      call_llm gen (resolveRequestKey x req.api_key) env prompt model = .ok raw := by
    intro prompt model
    unfold call_llm
    rw [hinit]
    dsimp only
    rw [hgen]
    simp [truthy_some_of_ne raw hraw]
  have hscore : score_sentences jsonLoads gen (resolveRequestKey x req.api_key) env
      (split_sentences req.text) req.question "gemini-2.5-flash" =
      .error (.valueError ("Failed to parse LLM response as JSON: " ++ e ++
        "\nResponse: " ++ (stripFences (stripL raw.data)).asString)) := by
    unfold score_sentences
    rw [hcall]
    dsimp only
    rw [hparse]
  have hht : (highlight_text jsonLoads gen (resolveRequestKey x req.api_key) env
      req.text req.question "gemini-2.5-flash").result =
      .error (.valueError ("Failed to parse LLM response as JSON: " ++ e ++
        "\nResponse: " ++ (stripFences (stripL raw.data)).asString)) := by
    unfold highlight_text
    rw [if_neg hsplit, hscore]
  constructor
  · unfold handleHighlight
    rw [hht]
  · refine ⟨("Failed to parse LLM response as JSON: " ++ e ++ "\nResponse: ").data,
      [], ?_⟩
    simp [String.data_append]

/-- Witness for the amended C5. -/
theorem C5_amended_witness :
    handleHighlight (fun _ => .error "Expecting value") (fun _ _ _ => some "oops")
        (fun _ => some "k") ⟨[], []⟩ none ⟨"Hello.", "q", none⟩ =
      (.unhandled (.valueError ("Failed to parse LLM response as JSON: " ++
        "Expecting value" ++ "\nResponse: " ++
        (stripFences (stripL "oops".data)).asString)), ⟨[], []⟩) ∧
    ((stripFences (stripL "oops".data)).asString).data <:+:
      ("Failed to parse LLM response as JSON: " ++ "Expecting value" ++
        "\nResponse: " ++ (stripFences (stripL "oops".data)).asString).data :=
  C5_amended_parse_failure_escapes (fun _ => .error "Expecting value")
    (fun _ _ _ => some "oops") (fun _ => some "k") ⟨[], []⟩ none
    ⟨"Hello.", "q", none⟩ "oops" "Expecting value" (.gemini "k")
    (by decide) (by decide) (fun _ _ _ => rfl) (by decide) rfl


/- Character-class and whitespace-normalization lemmas. -/

theorem isCap_not_isSpace (c : Char) (h : isCap c = true) : isSpace c = false := by
  simp only [isCap, Bool.and_eq_true, decide_eq_true_eq] at h
  simp only [isSpace, Bool.or_eq_false_iff, beq_eq_false_iff_ne, ne_eq]
  refine ⟨⟨⟨⟨⟨?_, ?_⟩, ?_⟩, ?_⟩, ?_⟩, ?_⟩ <;> rintro rfl <;> exact absurd h (by decide)

theorem isTerminal_not_isSpace (c : Char) (h : isTerminal c = true) :
    isSpace c = false := by
  simp only [isTerminal, Bool.or_eq_true, beq_iff_eq] at h
  rcases h with (rfl | rfl) | rfl <;> decide

theorem headNotSpace_append_left (x y : List Char) (hx : x ≠ []) :
    headNotSpace (x ++ y) = headNotSpace x := by
  cases x with
  | nil => exact absurd rfl hx
  | cons c r => rfl

theorem lastNotSpace_append_right (x y : List Char) (hy : y ≠ []) :
    lastNotSpace (x ++ y) = lastNotSpace y := by
  unfold lastNotSpace
  rw [List.reverse_append]
  exact headNotSpace_append_left _ _ (by simpa using hy)

theorem lastNotSpace_cons_of_ne_nil (c : Char) (x : List Char) (hx : x ≠ []) :
    lastNotSpace (c :: x) = lastNotSpace x := by
  have : c :: x = [c] ++ x := rfl
  rw [this, lastNotSpace_append_right _ _ hx]

theorem headNotSpace_dropWhile (l : List Char) :
    headNotSpace (l.dropWhile isSpace) = true := by
  induction l with
  | nil => rfl
  | cons c r ih =>
    rw [List.dropWhile_cons]
    cases h : isSpace c with
    | true => simpa [h] using ih
    | false => simp [headNotSpace, h]

theorem dropWhile_eq_self_of_headNotSpace (l : List Char)
    (h : headNotSpace l = true) : l.dropWhile isSpace = l := by
  cases l with
  | nil => rfl
  | cons c r =>
    simp only [headNotSpace, Bool.not_eq_true'] at h
    rw [List.dropWhile_cons, h]
    rfl

theorem stripL_headNotSpace (l : List Char) : headNotSpace (stripL l) = true := by
  unfold stripL
  set m := l.dropWhile isSpace with hm
  have hsuf : m.reverse.dropWhile isSpace <:+ m.reverse := List.dropWhile_suffix _
  obtain ⟨t, ht⟩ := hsuf
  have hpre : (m.reverse.dropWhile isSpace).reverse ++ t.reverse = m := by
    rw [← List.reverse_append, ht, List.reverse_reverse]
  cases hcase : (m.reverse.dropWhile isSpace).reverse with
  | nil => rfl
  | cons c r =>
    rw [hcase] at hpre
    have hmns : headNotSpace m = true := headNotSpace_dropWhile l
    rw [← hpre] at hmns
    rw [List.cons_append] at hmns
    simpa [headNotSpace] using hmns

theorem stripL_lastNotSpace (l : List Char) : lastNotSpace (stripL l) = true := by
  unfold stripL lastNotSpace
  rw [List.reverse_reverse]
  exact headNotSpace_dropWhile _

theorem stripL_eq_self (l : List Char) (h1 : headNotSpace l = true)
    (h2 : lastNotSpace l = true) : stripL l = l := by
  unfold stripL
  unfold lastNotSpace at h2
  rw [dropWhile_eq_self_of_headNotSpace l h1,
    dropWhile_eq_self_of_headNotSpace l.reverse h2, List.reverse_reverse]

theorem stripL_idem (l : List Char) : stripL (stripL l) = stripL l :=
  stripL_eq_self _ (stripL_headNotSpace l) (stripL_lastNotSpace l)

theorem stripL_nil : stripL [] = [] := rfl

theorem collapse_ne_nil (l : List Char) (h : l ≠ []) : collapse l ≠ [] := by
  induction l using collapse.induct with
  | case1 => exact absurd rfl h
  | case2 c hc => simp [collapse, hc]
  | case3 c hc => simp [collapse, hc]
  | case4 a b rest hab ih =>
    simp only [collapse]
    rw [if_pos hab]
    exact ih (by simp)
  | case5 a b rest hab ih =>
    simp only [collapse]
    rw [if_neg hab]
    simp

theorem collapse_headNotSpace (l : List Char) (h : headNotSpace l = true) :
    headNotSpace (collapse l) = true := by
  induction l using collapse.induct with
  | case1 => rfl
  | case2 c hc => simp only [headNotSpace, Bool.not_eq_true'] at h; rw [h] at hc; cases hc
  | case3 c hc => simpa [collapse, hc, headNotSpace] using h
  | case4 a b rest hab ih =>
    simp only [Bool.and_eq_true] at hab
    simp only [headNotSpace, Bool.not_eq_true'] at h
    rw [h] at hab
    cases hab.1
  | case5 a b rest hab ih =>
    simp only [headNotSpace, Bool.not_eq_true'] at h
    simp only [collapse]
    rw [if_neg hab]
    simp [headNotSpace, h]

theorem collapse_lastNotSpace (l : List Char) (h : lastNotSpace l = true) :
    lastNotSpace (collapse l) = true := by
  induction l using collapse.induct with
  | case1 => rfl
  | case2 c hc =>
    unfold lastNotSpace at h
    simp only [List.reverse_singleton, headNotSpace, Bool.not_eq_true'] at h
    rw [h] at hc; cases hc
  | case3 c hc => simpa [collapse, hc] using h
  | case4 a b rest hab ih =>
    rw [lastNotSpace_cons_of_ne_nil a (b :: rest) (by simp)] at h
    simp only [collapse]
    rw [if_pos hab]
    exact ih h
  | case5 a b rest hab ih =>
    rw [lastNotSpace_cons_of_ne_nil a (b :: rest) (by simp)] at h
    have hrec := ih h
    simp only [collapse]
    rw [if_neg hab,
      lastNotSpace_cons_of_ne_nil _ _ (collapse_ne_nil (b :: rest) (by simp))]
    exact hrec

theorem normalizeL_headNotSpace (l : List Char) :
    headNotSpace (normalizeL l) = true :=
  collapse_headNotSpace _ (stripL_headNotSpace l)

theorem normalizeL_lastNotSpace (l : List Char) :
    lastNotSpace (normalizeL l) = true :=
  collapse_lastNotSpace _ (stripL_lastNotSpace l)

theorem collapse_length_le (l : List Char) : (collapse l).length ≤ l.length := by
  induction l using collapse.induct with
  | case1 => simp [collapse]
  | case2 c hc => simp [collapse, hc]
  | case3 c hc => simp [collapse, hc]
  | case4 a b rest hab ih =>
    simp only [collapse]
    rw [if_pos hab]
    simp only [List.length_cons] at ih ⊢
    omega
  | case5 a b rest hab ih =>
    simp only [collapse]
    rw [if_neg hab]
    simp only [List.length_cons] at ih ⊢
    omega

theorem stripL_sublist (l : List Char) : List.Sublist (stripL l) l := by
  unfold stripL
  have h1 : List.Sublist (l.dropWhile isSpace) l := (List.dropWhile_suffix _).sublist
  have h2 : List.Sublist ((l.dropWhile isSpace).reverse.dropWhile isSpace)
      (l.dropWhile isSpace).reverse := (List.dropWhile_suffix _).sublist
  have h3 : List.Sublist ((l.dropWhile isSpace).reverse.dropWhile isSpace).reverse
      (l.dropWhile isSpace) := by
    have := h2.reverse
    simpa using this
  exact h3.trans h1

/-- A fixed point of the normalization is fixed by each of its two stages. -/
theorem normalizeL_fixed (l : List Char) (h : normalizeL l = l) :
    stripL l = l ∧ collapse l = l := by
  have hs : stripL l = l := by
    have h1 : (stripL l).length ≤ l.length := (stripL_sublist l).length_le
    have h2 : l.length ≤ (stripL l).length := by
      conv_lhs => rw [← h]
      exact collapse_length_le (stripL l)
    exact (stripL_sublist l).eq_of_length (Nat.le_antisymm h1 h2)
  refine ⟨hs, ?_⟩
  unfold normalizeL at h
  rwa [hs] at h


/- Structure of the splitting scan. -/

theorem rev_cons_append (d : Char) (cur X : List Char) :
    (d :: cur).reverse ++ X = cur.reverse ++ d :: X := by
  simp

theorem splitRun_cons2 (cur : List Char) (a b : Char) (rest : List Char) :
    splitRun cur (a :: b :: rest) =
      if punctHead cur && a == ' ' && isCap b then cur.reverse :: splitRun [b] rest
      else splitRun (a :: cur) (b :: rest) := rfl

theorem punctHead_ne_nil (cur : List Char) (h : punctHead cur = true) : cur ≠ [] := by
  cases cur with
  | nil => cases h
  | cons c r => simp

theorem recon_cons_eq (x : List Char) (xs : List (List Char)) :
    recon (x :: xs) = x ++ joinTail xs := by
  cases xs with
  | nil => simp [recon, joinTail]
  | cons y ys => simp [recon, joinTail]

theorem adjBoundary_append_pattern (u : List Char) (p s c : Char) (t : List Char)
    (hp : isTerminal p = true) (hs : s = ' ') (hc : isCap c = true) :
    adjBoundary (u ++ p :: s :: c :: t) = true := by
  induction u with
  | nil =>
    simp only [List.nil_append, adjBoundary, adjBoundaryAt, Bool.or_eq_true]
    exact Or.inl (by simp [hp, hs, hc])
  | cons x u ih =>
    simp only [List.cons_append, adjBoundary, Bool.or_eq_true]
    exact Or.inr ih

/-- The kept fragments of a scan started on a nonempty current fragment are
never all empty. -/
theorem splitRun_filter_ne_nil (cur l : List Char) :
    cur ≠ [] → (splitRun cur l).filter (· ≠ []) ≠ [] := by
  induction cur, l using splitRun.induct with
  | case1 cur a b rest hcond ih =>
    intro h
    simp only [splitRun]
    rw [if_pos hcond]
    have hrev : cur.reverse ≠ [] := by
      simpa using punctHead_ne_nil cur (by
        simp only [Bool.and_eq_true] at hcond
        exact hcond.1.1)
    simp [List.filter_cons, hrev]
  | case2 cur a b rest hcond ih =>
    intro h
    simp only [splitRun]
    rw [if_neg hcond]
    exact ih (by simp)
  | case3 cur a ih =>
    intro h
    have heq : splitRun cur [a] = splitRun (a :: cur) [] := rfl
    rw [heq]
    exact ih (by simp)
  | case4 cur hp =>
    intro h
    have hrev : cur.reverse ≠ [] := by simpa using punctHead_ne_nil cur hp
    simp only [splitRun]
    rw [if_pos hp]
    simp [List.filter_cons, hrev]
  | case5 cur hp =>
    intro h
    have hrev : cur.reverse ≠ [] := by simpa using h
    simp only [splitRun]
    rw [if_neg hp]
    simp [List.filter_cons, hrev]

/-- Reconstruction: joining the kept fragments with single spaces gives back
exactly the text being scanned (the current fragment followed by the rest). -/
theorem splitRun_recon (cur l : List Char) :
    recon ((splitRun cur l).filter (· ≠ [])) = cur.reverse ++ l := by
  induction cur, l using splitRun.induct with
  | case1 cur a b rest hcond ih =>
    have hcond2 := hcond
    simp only [Bool.and_eq_true, beq_iff_eq] at hcond2
    obtain ⟨⟨hpunct, ha⟩, hcap⟩ := hcond2
    have hrev : cur.reverse ≠ [] := by simpa using punctHead_ne_nil cur hpunct
    simp only [splitRun]
    rw [if_pos hcond]
    rw [List.filter_cons_of_pos (by simpa using hrev)]
    obtain ⟨f, fs, hfs⟩ : ∃ f fs, (splitRun [b] rest).filter (· ≠ []) = f :: fs := by
      cases hx : (splitRun [b] rest).filter (· ≠ []) with
      | nil => exact absurd hx (splitRun_filter_ne_nil [b] rest (by simp))
      | cons f fs => exact ⟨f, fs, rfl⟩
    rw [hfs]
    rw [hfs] at ih
    simp only [recon]
    rw [ih, ha]
    rfl
  | case2 cur a b rest hcond ih =>
    simp only [splitRun]
    rw [if_neg hcond, ih, rev_cons_append]
  | case3 cur a ih =>
    have heq : splitRun cur [a] = splitRun (a :: cur) [] := rfl
    rw [heq, ih, rev_cons_append]
  | case4 cur hp =>
    have hrev : cur.reverse ≠ [] := by simpa using punctHead_ne_nil cur hp
    simp only [splitRun]
    rw [if_pos hp]
    simp [List.filter_cons, hrev, recon]
  | case5 cur hp =>
    simp only [splitRun]
    rw [if_neg hp]
    by_cases hc : cur.reverse = []
    · simp [List.filter_cons, hc, recon]
    · simp [List.filter_cons, hc, recon]

/-- Every fragment of a scan over text with no whitespace at either end is
fixed by stripping. -/
theorem splitRun_strip_id (cur l : List Char) :
    headNotSpace (cur.reverse ++ l) = true →
    lastNotSpace (cur.reverse ++ l) = true →
    ∀ f ∈ splitRun cur l, stripL f = f := by
  induction cur, l using splitRun.induct with
  | case1 cur a b rest hcond ih =>
    intro h1 h2
    have hcond2 := hcond
    simp only [Bool.and_eq_true, beq_iff_eq] at hcond2
    obtain ⟨⟨hpunct, ha⟩, hcap⟩ := hcond2
    have hcne : cur ≠ [] := punctHead_ne_nil cur hpunct
    have hrev : cur.reverse ≠ [] := by simpa using hcne
    intro f hf
    simp only [splitRun] at hf
    rw [if_pos hcond] at hf
    rcases List.mem_cons.mp hf with rfl | hf2
    · refine stripL_eq_self _ ?_ ?_
      · rw [← headNotSpace_append_left cur.reverse (a :: b :: rest) hrev]
        exact h1
      · have hls : lastNotSpace cur.reverse = headNotSpace cur := by
          simp [lastNotSpace]
        rw [hls]
        cases cur with
        | nil => exact absurd rfl hcne
        | cons p cr =>
          simp only [punctHead] at hpunct
          simp [headNotSpace, isTerminal_not_isSpace p hpunct]
    · refine ih ?_ ?_ f hf2
      · simp only [List.reverse_singleton, List.singleton_append, headNotSpace]
        simp [isCap_not_isSpace b hcap]
      · rw [List.reverse_singleton, List.singleton_append]
        rw [lastNotSpace_append_right _ (a :: b :: rest) (by simp)] at h2
        rw [show a :: b :: rest = [a] ++ b :: rest from rfl] at h2
        rwa [lastNotSpace_append_right _ (b :: rest) (by simp)] at h2
  | case2 cur a b rest hcond ih =>
    intro h1 h2 f hf
    simp only [splitRun] at hf
    rw [if_neg hcond] at hf
    rw [← rev_cons_append a cur (b :: rest)] at h1 h2
    exact ih h1 h2 f hf
  | case3 cur a ih =>
    intro h1 h2 f hf
    have heq : splitRun cur [a] = splitRun (a :: cur) [] := rfl
    rw [heq] at hf
    rw [← rev_cons_append a cur []] at h1 h2
    exact ih h1 h2 f hf
  | case4 cur hp =>
    intro h1 h2 f hf
    simp only [splitRun] at hf
    rw [if_pos hp] at hf
    have hstrip : stripL cur.reverse = cur.reverse :=
      stripL_eq_self _ (by simpa using h1) (by simpa using h2)
    rcases List.mem_cons.mp hf with rfl | hf2
    · exact hstrip
    · rcases List.mem_singleton.mp hf2 with rfl
      rfl
  | case5 cur hp =>
    intro h1 h2 f hf
    simp only [splitRun] at hf
    rw [if_neg hp] at hf
    have hstrip : stripL cur.reverse = cur.reverse :=
      stripL_eq_self _ (by simpa using h1) (by simpa using h2)
    rcases List.mem_singleton.mp hf with rfl
    exact hstrip

/-- With no adjacent boundary in the text, the scan keeps everything in one
fragment (plus the zero-width end fragment when the text ends in terminal
punctuation). -/
theorem splitRun_no_boundary (cur l : List Char) :
    adjBoundary (cur.reverse ++ l) = false →
    splitRun cur l = [cur.reverse ++ l] ∨ splitRun cur l = [cur.reverse ++ l, []] := by
  induction cur, l using splitRun.induct with
  | case1 cur a b rest hcond ih =>
    intro h
    exfalso
    simp only [Bool.and_eq_true, beq_iff_eq] at hcond
    obtain ⟨⟨hpunct, ha⟩, hcap⟩ := hcond
    cases cur with
    | nil => cases hpunct
    | cons p cr =>
      simp only [punctHead] at hpunct
      rw [show (p :: cr).reverse ++ a :: b :: rest =
        cr.reverse ++ p :: a :: b :: rest from by simp] at h
      rw [adjBoundary_append_pattern cr.reverse p a b rest hpunct ha hcap] at h
      cases h
  | case2 cur a b rest hcond ih =>
    intro h
    simp only [splitRun]
    rw [if_neg hcond]
    rw [← rev_cons_append a cur (b :: rest)] at h
    rcases ih h with h2 | h2
    · exact Or.inl (by rw [h2, rev_cons_append])
    · exact Or.inr (by rw [h2, rev_cons_append])
  | case3 cur a ih =>
    intro h
    have heq : splitRun cur [a] = splitRun (a :: cur) [] := rfl
    rw [heq]
    rw [← rev_cons_append a cur []] at h
    rcases ih h with h2 | h2
    · exact Or.inl (by rw [h2, rev_cons_append])
    · exact Or.inr (by rw [h2, rev_cons_append])
  | case4 cur hp =>
    intro h
    simp only [splitRun]
    rw [if_pos hp]
    exact Or.inr (by simp)
  | case5 cur hp =>
    intro h
    simp only [splitRun]
    rw [if_neg hp]
    exact Or.inl (by simp)

/-- As `splitRun_no_boundary`, but when the text additionally ends in terminal
punctuation the zero-width end fragment is definitely produced. -/
theorem splitRun_no_boundary_end_punct (cur l : List Char) :
    adjBoundary (cur.reverse ++ l) = false →
    punctHead (l.reverse ++ cur) = true →
    splitRun cur l = [cur.reverse ++ l, []] := by
  induction cur, l using splitRun.induct with
  | case1 cur a b rest hcond ih =>
    intro h hp
    exfalso
    simp only [Bool.and_eq_true, beq_iff_eq] at hcond
    obtain ⟨⟨hpunct, ha⟩, hcap⟩ := hcond
    cases cur with
    | nil => cases hpunct
    | cons p cr =>
      simp only [punctHead] at hpunct
      rw [show (p :: cr).reverse ++ a :: b :: rest =
        cr.reverse ++ p :: a :: b :: rest from by simp] at h
      rw [adjBoundary_append_pattern cr.reverse p a b rest hpunct ha hcap] at h
      cases h
  | case2 cur a b rest hcond ih =>
    intro h hp
    simp only [splitRun]
    rw [if_neg hcond]
    rw [← rev_cons_append a cur (b :: rest)] at h
    rw [show (a :: b :: rest).reverse ++ cur = (b :: rest).reverse ++ a :: cur
      from by simp] at hp
    rw [ih h hp, rev_cons_append]
  | case3 cur a ih =>
    intro h hp
    have heq : splitRun cur [a] = splitRun (a :: cur) [] := rfl
    rw [heq]
    rw [← rev_cons_append a cur []] at h
    rw [show [a].reverse ++ cur = ([] : List Char).reverse ++ a :: cur
      from by simp] at hp
    rw [ih h hp, rev_cons_append]
  | case4 cur hp2 =>
    intro h hp
    simp only [splitRun]
    rw [if_pos hp2]
    simp
  | case5 cur hp2 =>
    intro h hp
    simp only [List.reverse_nil, List.nil_append] at hp
    exact absurd hp hp2


/- Transfer of the boundary predicate through normalization. -/

theorem hasBoundary_cons (c : Char) (r : List Char) :
    hasBoundary (c :: r) = ((isTerminal c && spacesThenCap r) || hasBoundary r) := rfl

theorem capAfterSpaces_cons_space (c : Char) (l : List Char) (h : isSpace c = true) :
    capAfterSpaces (c :: l) = capAfterSpaces l := by
  unfold capAfterSpaces
  rw [List.dropWhile_cons, if_pos h]

theorem capAfterSpaces_cons_nospace (c : Char) (l : List Char) (h : isSpace c = false) :
    capAfterSpaces (c :: l) = isCap c := by
  unfold capAfterSpaces
  rw [List.dropWhile_cons, if_neg (by simp [h])]

theorem capAfterSpaces_collapse (l : List Char) :
    capAfterSpaces (collapse l) = capAfterSpaces l := by
  induction l using collapse.induct with
  | case1 => rfl
  | case2 c hc =>
    simp only [collapse, hc, if_true]
    rw [capAfterSpaces_cons_space ' ' _ (by decide), capAfterSpaces_cons_space _ _ hc]
  | case3 c hc =>
    simp only [collapse, hc]
    rw [if_neg (by simp [hc])]
  | case4 a b rest hab ih =>
    simp only [Bool.and_eq_true] at hab
    simp only [collapse]
    rw [if_pos (by simp [hab.1, hab.2])]
    rw [ih, capAfterSpaces_cons_space _ _ hab.1]
  | case5 a b rest hab ih =>
    simp only [collapse]
    rw [if_neg hab]
    by_cases ha : isSpace a = true
    · rw [if_pos ha, capAfterSpaces_cons_space ' ' _ (by decide), ih,
        capAfterSpaces_cons_space _ _ ha]
    · have ha2 : isSpace a = false := by simpa using ha
      rw [if_neg ha, capAfterSpaces_cons_nospace _ _ ha2,
        capAfterSpaces_cons_nospace _ _ ha2]

theorem spacesThenCap_collapse (l : List Char) :
    spacesThenCap (collapse l) = spacesThenCap l := by
  induction l using collapse.induct with
  | case1 => rfl
  | case2 c hc => simp [collapse, hc, spacesThenCap, capAfterSpaces]
  | case3 c hc =>
    simp only [collapse, hc]
    rw [if_neg (by simp [hc])]
  | case4 a b rest hab ih =>
    simp only [Bool.and_eq_true] at hab
    simp only [collapse]
    rw [if_pos (by simp [hab.1, hab.2])]
    rw [ih]
    simp only [spacesThenCap, hab.1, hab.2, Bool.true_and]
    rw [capAfterSpaces_cons_space _ _ hab.2]
  | case5 a b rest hab ih =>
    simp only [collapse]
    rw [if_neg hab]
    by_cases ha : isSpace a = true
    · rw [if_pos ha]
      simp only [spacesThenCap, ha, Bool.true_and]
      have : isSpace ' ' = true := rfl
      simp only [this, Bool.true_and]
      rw [capAfterSpaces_collapse]
    · have ha2 : isSpace a = false := by simpa using ha
      rw [if_neg ha]
      simp only [spacesThenCap, ha2, Bool.false_and]

theorem adjBoundaryAt_spacesThenCap (p : Char) (X : List Char)
    (h : adjBoundaryAt (p :: X) = true) : spacesThenCap X = true := by
  cases X with
  | nil => cases h
  | cons s X2 =>
    cases X2 with
    | nil => cases h
    | cons c0 t =>
      simp only [adjBoundaryAt, Bool.and_eq_true, beq_iff_eq] at h
      obtain ⟨⟨hp, hs⟩, hc⟩ := h
      subst hs
      simp only [spacesThenCap, Bool.and_eq_true]
      refine ⟨rfl, ?_⟩
      rw [capAfterSpaces_cons_nospace _ _ (isCap_not_isSpace c0 hc)]
      exact hc

theorem adjBoundaryAt_punct (p : Char) (X : List Char)
    (h : adjBoundaryAt (p :: X) = true) : isTerminal p = true := by
  cases X with
  | nil => cases h
  | cons s X2 =>
    cases X2 with
    | nil => cases h
    | cons c0 t =>
      simp only [adjBoundaryAt, Bool.and_eq_true] at h
      exact h.1.1

theorem hasBoundary_of_adjBoundary_collapse (l : List Char)
    (h : adjBoundary (collapse l) = true) : hasBoundary l = true := by
  induction l using collapse.induct with
  | case1 => cases h
  | case2 c hc => simp [collapse, hc, adjBoundary, adjBoundaryAt] at h
  | case3 c hc =>
    simp only [collapse] at h
    rw [if_neg (by simp [hc])] at h
    simp [adjBoundary, adjBoundaryAt] at h
  | case4 a b rest hab ih =>
    simp only [Bool.and_eq_true] at hab
    simp only [collapse] at h
    rw [if_pos (by simp [hab.1, hab.2])] at h
    rw [hasBoundary_cons, Bool.or_eq_true]
    exact Or.inr (ih h)
  | case5 a b rest hab ih =>
    simp only [collapse] at h
    rw [if_neg hab] at h
    simp only [adjBoundary, Bool.or_eq_true] at h
    rcases h with hat | hrec
    · have hpunct := adjBoundaryAt_punct _ _ hat
      have hstc := adjBoundaryAt_spacesThenCap _ _ hat
      have hterm : isTerminal ' ' = false := by decide
      by_cases ha : isSpace a = true
      · rw [if_pos ha] at hpunct
        rw [hterm] at hpunct
        cases hpunct
      · rw [if_neg ha] at hpunct
        rw [spacesThenCap_collapse] at hstc
        rw [hasBoundary_cons, Bool.or_eq_true]
        exact Or.inl (by simp [hpunct, hstc])
    · rw [hasBoundary_cons, Bool.or_eq_true]
      exact Or.inr (ih hrec)

theorem hasBoundary_of_dropWhile (l : List Char)
    (h : hasBoundary (l.dropWhile isSpace) = true) : hasBoundary l = true := by
  induction l with
  | nil => exact h
  | cons c r ih =>
    rw [List.dropWhile_cons] at h
    by_cases hc : isSpace c = true
    · rw [if_pos hc] at h
      rw [hasBoundary_cons, Bool.or_eq_true]
      exact Or.inr (ih h)
    · rw [if_neg hc] at h
      exact h

theorem capAfterSpaces_append (u v : List Char)
    (h : capAfterSpaces u = true) : capAfterSpaces (u ++ v) = true := by
  induction u with
  | nil => cases h
  | cons c r ih =>
    by_cases hc : isSpace c = true
    · rw [capAfterSpaces_cons_space _ _ hc] at h
      rw [List.cons_append, capAfterSpaces_cons_space _ _ hc]
      exact ih h
    · have hc2 : isSpace c = false := by simpa using hc
      rw [capAfterSpaces_cons_nospace _ _ hc2] at h
      rw [List.cons_append, capAfterSpaces_cons_nospace _ _ hc2]
      exact h

theorem spacesThenCap_append (u v : List Char)
    (h : spacesThenCap u = true) : spacesThenCap (u ++ v) = true := by
  cases u with
  | nil => cases h
  | cons s t =>
    simp only [spacesThenCap, Bool.and_eq_true] at h
    simp only [List.cons_append, spacesThenCap, Bool.and_eq_true]
    exact ⟨h.1, capAfterSpaces_append t v h.2⟩

theorem hasBoundary_append (u v : List Char)
    (h : hasBoundary u = true) : hasBoundary (u ++ v) = true := by
  induction u with
  | nil => cases h
  | cons c r ih =>
    rw [hasBoundary_cons, Bool.or_eq_true] at h
    rw [List.cons_append, hasBoundary_cons, Bool.or_eq_true]
    rcases h with h | h
    · simp only [Bool.and_eq_true] at h
      exact Or.inl (by simp [h.1, spacesThenCap_append r v h.2])
    · exact Or.inr (ih h)

theorem hasBoundary_of_stripL (l : List Char)
    (h : hasBoundary (stripL l) = true) : hasBoundary l = true := by
  obtain ⟨s, hs⟩ := List.dropWhile_suffix (l := (l.dropWhile isSpace).reverse) isSpace
  have hpre : stripL l ++ s.reverse = l.dropWhile isSpace := by
    have := congrArg List.reverse hs
    simpa [stripL] using this
  have h2 : hasBoundary (l.dropWhile isSpace) = true := by
    rw [← hpre]
    exact hasBoundary_append _ _ h
  exact hasBoundary_of_dropWhile l h2

/-- Master transfer: an adjacent boundary in the normalized text pulls back to
a boundary (terminal punctuation, whitespace, capital) in the raw text. -/
theorem hasBoundary_of_normalizeL (l : List Char)
    (h : adjBoundary (normalizeL l) = true) : hasBoundary l = true :=
  hasBoundary_of_stripL l (hasBoundary_of_adjBoundary_collapse (stripL l) h)


/-- Claim C7: `split_sentences` returns an ordered sequence of non-empty,
whitespace-trimmed strings that preserves the original left-to-right order —
joining the returned sentences with single spaces reconstructs the normalized
text exactly — and for text containing no terminal punctuation mark followed
by whitespace-then-capital nor at the end of the string, the result is the
single whole normalized text when it is non-empty and the empty sequence when
the text is empty or whitespace-only. -/
theorem C7_splitter_contract (text : String) :
    recon (splitSentencesL text) = normalizeL text.data ∧
    (∀ s ∈ split_sentences text, s ≠ "" ∧ stripL s.data = s.data) ∧
    (hasSplitTrigger text.data = false →
      split_sentences text =
        if normalizeL text.data = [] then []
        else [(normalizeL text.data).asString]) := by
  have hinv1 : headNotSpace (([] : List Char).reverse ++ normalizeL text.data) = true := by
    simpa using normalizeL_headNotSpace text.data
  have hinv2 : lastNotSpace (([] : List Char).reverse ++ normalizeL text.data) = true := by
    simpa using normalizeL_lastNotSpace text.data
  have hmapid : (splitRun [] (normalizeL text.data)).map stripL =
      splitRun [] (normalizeL text.data) := by
    have hid := splitRun_strip_id [] (normalizeL text.data) hinv1 hinv2
    calc (splitRun [] (normalizeL text.data)).map stripL
        = (splitRun [] (normalizeL text.data)).map id :=
          List.map_congr_left fun f hf => hid f hf
      _ = _ := List.map_id _
  have hsplitL : splitSentencesL text =
      (splitRun [] (normalizeL text.data)).filter (· ≠ []) := by
    unfold splitSentencesL
    rw [hmapid]
  refine ⟨?_, ?_, ?_⟩
  · rw [hsplitL, splitRun_recon]
    simp
  · intro s hs
    unfold split_sentences at hs
    rw [List.mem_map] at hs
    obtain ⟨f, hf, rfl⟩ := hs
    unfold splitSentencesL at hf
    rw [List.mem_filter] at hf
    obtain ⟨hfmem, hfne⟩ := hf
    rw [List.mem_map] at hfmem
    obtain ⟨f0, _, rfl⟩ := hfmem
    have hfne2 : stripL f0 ≠ [] := by simpa using hfne
    constructor
    · intro hcon
      apply hfne2
      have hdata : ((stripL f0).asString).data = ("" : String).data := by rw [hcon]
      simpa using hdata
    · show stripL ((stripL f0).asString).data = ((stripL f0).asString).data
      have hd : ((stripL f0).asString).data = stripL f0 := rfl
      rw [hd, stripL_idem]
  · intro htrig
    unfold hasSplitTrigger at htrig
    rw [Bool.or_eq_false_iff] at htrig
    have hadj : adjBoundary (normalizeL text.data) = false := by
      cases hadj : adjBoundary (normalizeL text.data) with
      | false => rfl
      | true =>
        rw [hasBoundary_of_normalizeL text.data hadj] at htrig
        exact absurd htrig.1 (by simp)
    have hrun := splitRun_no_boundary [] (normalizeL text.data) (by simpa using hadj)
    simp only [List.reverse_nil, List.nil_append] at hrun
    unfold split_sentences
    rw [hsplitL]
    by_cases hnil : normalizeL text.data = []
    · rw [if_pos hnil, hnil]
      rfl
    · rw [if_neg hnil]
      rcases hrun with h2 | h2 <;> rw [h2]
      · simp [List.filter_cons, hnil]
      · simp [List.filter_cons, hnil]

/-- Witness for C7 at a concrete boundary-free text with irregular
whitespace. -/
theorem C7_witness :
    recon (splitSentencesL "  hello   world ") = normalizeL "  hello   world ".data ∧
    (∀ s ∈ split_sentences "  hello   world ", s ≠ "" ∧ stripL s.data = s.data) ∧
    split_sentences "  hello   world " =
      (if normalizeL "  hello   world ".data = [] then []
       else [(normalizeL "  hello   world ".data).asString]) :=
  ⟨(C7_splitter_contract "  hello   world ").1,
   (C7_splitter_contract "  hello   world ").2.1,
   (C7_splitter_contract "  hello   world ").2.2 (by decide)⟩


/- Joining normalized sentences. -/

theorem asString_data (s : String) : s.data.asString = s := rfl

theorem collapse_append (y x : List Char) :
    lastNotSpace x = true → collapse (x ++ y) = collapse x ++ collapse y := by
  induction x using collapse.induct with
  | case1 => intro h; rfl
  | case2 c hc =>
    intro h
    unfold lastNotSpace at h
    simp only [List.reverse_singleton, headNotSpace, Bool.not_eq_true'] at h
    rw [h] at hc
    cases hc
  | case3 c hc =>
    intro h
    have hc2 : isSpace c = false := by simpa using hc
    cases y with
    | nil => simp [collapse]
    | cons b y2 =>
      simp only [List.singleton_append, collapse]
      rw [if_neg (by simp [hc2]), if_neg (by simp [hc2])]
      simp [hc2]
  | case4 a b rest hab ih =>
    intro h
    rw [lastNotSpace_cons_of_ne_nil a (b :: rest) (by simp)] at h
    have hx : (a :: b :: rest) ++ y = a :: b :: (rest ++ y) := by simp
    rw [hx]
    simp only [collapse]
    rw [if_pos hab, if_pos hab]
    have hx2 : b :: (rest ++ y) = (b :: rest) ++ y := by simp
    rw [hx2]
    exact ih h
  | case5 a b rest hab ih =>
    intro h
    rw [lastNotSpace_cons_of_ne_nil a (b :: rest) (by simp)] at h
    have hx : (a :: b :: rest) ++ y = a :: b :: (rest ++ y) := by simp
    rw [hx]
    simp only [collapse]
    rw [if_neg hab, if_neg hab]
    have hx2 : b :: (rest ++ y) = (b :: rest) ++ y := by simp
    rw [hx2, ih h]
    simp

theorem recon_ne_nil (rs : List (List Char)) (h0 : rs ≠ [])
    (h1 : ∀ r ∈ rs, r ≠ []) : recon rs ≠ [] := by
  cases rs with
  | nil => exact absurd rfl h0
  | cons r rs2 =>
    rw [recon_cons_eq]
    cases rs2 with
    | nil => simpa [joinTail] using h1 r (by simp)
    | cons r2 rs3 => simp [joinTail]

theorem recon_headNotSpace (rs : List (List Char))
    (h1 : ∀ r ∈ rs, r ≠ []) (h2 : ∀ r ∈ rs, headNotSpace r = true) :
    headNotSpace (recon rs) = true := by
  cases rs with
  | nil => rfl
  | cons r rs2 =>
    rw [recon_cons_eq, headNotSpace_append_left r _ (h1 r (by simp))]
    exact h2 r (by simp)

theorem recon_lastNotSpace (rs : List (List Char))
    (h1 : ∀ r ∈ rs, r ≠ []) (h2 : ∀ r ∈ rs, lastNotSpace r = true) :
    lastNotSpace (recon rs) = true := by
  induction rs with
  | nil => rfl
  | cons r rs2 ih =>
    cases rs2 with
    | nil => exact h2 r (by simp)
    | cons r2 rs3 =>
      have hrec : recon (r2 :: rs3) ≠ [] :=
        recon_ne_nil _ (by simp) fun x hx => h1 x (by simp [hx])
      simp only [recon]
      rw [lastNotSpace_append_right r _ (by simp),
        lastNotSpace_cons_of_ne_nil _ _ hrec]
      exact ih (fun x hx => h1 x (by simp [hx])) fun x hx => h2 x (by simp [hx])

theorem collapse_recon (rs : List (List Char))
    (h1 : ∀ r ∈ rs, r ≠ []) (h2 : ∀ r ∈ rs, collapse r = r)
    (h3 : ∀ r ∈ rs, headNotSpace r = true) (h4 : ∀ r ∈ rs, lastNotSpace r = true) :
    collapse (recon rs) = recon rs := by
  induction rs with
  | nil => rfl
  | cons r rs2 ih =>
    cases rs2 with
    | nil => exact h2 r (by simp)
    | cons r2 rs3 =>
      simp only [recon]
      rw [collapse_append _ r (h4 r (by simp)), h2 r (by simp)]
      congr 1
      have hrne : recon (r2 :: rs3) ≠ [] :=
        recon_ne_nil _ (by simp) fun x hx => h1 x (by simp [hx])
      have hrhead : headNotSpace (recon (r2 :: rs3)) = true :=
        recon_headNotSpace _ (fun x hx => h1 x (by simp [hx]))
          fun x hx => h3 x (by simp [hx])
      have hih : collapse (recon (r2 :: rs3)) = recon (r2 :: rs3) :=
        ih (fun x hx => h1 x (by simp [hx])) (fun x hx => h2 x (by simp [hx]))
          (fun x hx => h3 x (by simp [hx])) fun x hx => h4 x (by simp [hx])
      cases hx : recon (r2 :: rs3) with
      | nil => exact absurd hx hrne
      | cons x0 X =>
        rw [hx] at hrhead
        have hx0 : isSpace x0 = false := by
          simpa [headNotSpace] using hrhead
        simp only [collapse]
        rw [if_neg (by simp [hx0])]
        rw [hx] at hih
        rw [hih]
        rfl

/-- Scanning through one boundary-free sentence that ends in terminal
punctuation, followed by a space and a capital letter: the scan cuts exactly
at the space. -/
theorem splitRun_through_sentence (sd : List Char) :
    ∀ (cur : List Char) (c : Char) (tail : List Char),
    isCap c = true →
    adjBoundary (cur.reverse ++ sd) = false →
    punctHead (sd.reverse ++ cur) = true →
    splitRun cur (sd ++ ' ' :: c :: tail) = (cur.reverse ++ sd) :: splitRun [c] tail := by
  induction sd with
  | nil =>
    intro cur c tail hcap hadj hpunct
    simp only [List.reverse_nil, List.nil_append] at hpunct
    simp only [List.nil_append]
    rw [splitRun_cons2, if_pos (by simp [hpunct, hcap])]
    simp
  | cons d sd2 ih =>
    intro cur c tail hcap hadj hpunct
    cases sd2 with
    | nil =>
      simp only [List.reverse_singleton, List.singleton_append, punctHead] at hpunct
      have hdsp : (d == ' ') = false := by
        cases hdq : d == ' ' with
        | false => rfl
        | true =>
          have hd : d = ' ' := by simpa using hdq
          rw [hd] at hpunct
          cases hpunct
      simp only [List.singleton_append, List.cons_append, List.nil_append]
      rw [splitRun_cons2, if_neg (by simp [hdsp])]
      have hih := ih (d :: cur) c tail hcap
        (by rw [rev_cons_append]; simpa using hadj)
        (by simpa [punctHead] using hpunct)
      simp only [List.nil_append, List.append_nil] at hih
      rw [hih]
      simp
    | cons e sd3 =>
      have hshape : (d :: e :: sd3) ++ ' ' :: c :: tail =
          d :: e :: (sd3 ++ ' ' :: c :: tail) := by simp
      rw [hshape]
      have hcond : (punctHead cur && d == ' ' && isCap e) = false := by
        cases hc : punctHead cur && d == ' ' && isCap e with
        | false => rfl
        | true =>
          exfalso
          simp only [Bool.and_eq_true, beq_iff_eq] at hc
          obtain ⟨⟨hpc, hd⟩, he⟩ := hc
          cases cur with
          | nil => cases hpc
          | cons p cr =>
            simp only [punctHead] at hpc
            rw [show (p :: cr).reverse ++ (d :: e :: sd3) =
              cr.reverse ++ p :: d :: e :: sd3 from by simp] at hadj
            rw [adjBoundary_append_pattern cr.reverse p d e sd3 hpc hd he] at hadj
            cases hadj
      rw [splitRun_cons2, if_neg (by simp [hcond])]
      have hih := ih (d :: cur) c tail hcap
        (by rw [rev_cons_append]; simpa using hadj)
        (by simpa using hpunct)
      have hshape2 : e :: (sd3 ++ ' ' :: c :: tail) = (e :: sd3) ++ ' ' :: c :: tail := by
        simp
      rw [hshape2, hih]
      simp

/-- Scanning the single-space join of boundary-free, punctuation-terminated,
capital-started sentences yields exactly those sentences (plus the zero-width
end fragment). -/
theorem splitRun_join (rest : List (List Char)) :
    ∀ (cur sd : List Char),
    adjBoundary (cur.reverse ++ sd) = false →
    punctHead (sd.reverse ++ cur) = true →
    (∀ r ∈ rest, r ≠ [] ∧ adjBoundary r = false ∧ punctHead r.reverse = true ∧
      isCap (r.headD 'x') = true) →
    splitRun cur (sd ++ joinTail rest) = (cur.reverse ++ sd) :: (rest ++ [[]]) := by
  induction rest with
  | nil =>
    intro cur sd hadj hpunct _
    simp only [joinTail, List.append_nil]
    rw [splitRun_no_boundary_end_punct cur sd hadj hpunct]
    rfl
  | cons r rest2 ih =>
    intro cur sd hadj hpunct hall
    obtain ⟨hrne, hradj, hrpunct, hrcap⟩ := hall r (by simp)
    obtain ⟨c, r2, hr⟩ : ∃ c r2, r = c :: r2 := by
      cases r with
      | nil => exact absurd rfl hrne
      | cons c r2 => exact ⟨c, r2, rfl⟩
    subst hr
    have hjoin : joinTail ((c :: r2) :: rest2) = ' ' :: c :: (r2 ++ joinTail rest2) := by
      rw [show joinTail ((c :: r2) :: rest2) = ' ' :: recon ((c :: r2) :: rest2) from rfl,
        recon_cons_eq]
      rfl
    rw [hjoin]
    rw [splitRun_through_sentence sd cur c (r2 ++ joinTail rest2)
      (by simpa using hrcap) hadj hpunct]
    have hih := ih [c] r2 (by simpa using hradj) (by simpa using hrpunct)
      fun x hx => hall x (by simp [hx])
    rw [hih]
    simp

/-- Claim C8 (amended): splitting the single-space join of sentences that are
each fixed by whitespace normalization, contain no internal sentence boundary,
end in terminal punctuation, and (after the first) start with an upper-case
letter, yields exactly those sentences. -/
theorem C8_split_join_normalized (S : List String)
    (hnorm : ∀ s ∈ S, normalizeL s.data = s.data)
    (hnob : ∀ s ∈ S, adjBoundary s.data = false)
    (hend : ∀ s ∈ S, punctHead s.data.reverse = true)
    (hcap : ∀ s ∈ S.tail, isCap (s.data.headD 'x') = true) :
    split_sentences (joinSpace S) = S := by
  cases S with
  | nil => decide
  | cons s S2 =>
    have hfacts : ∀ d ∈ (s :: S2).map String.data, d ≠ [] ∧ collapse d = d ∧
        headNotSpace d = true ∧ lastNotSpace d = true := by
      intro d hd
      rw [List.mem_map] at hd
      obtain ⟨x, hx, rfl⟩ := hd
      have h1 := hend x hx
      have hne : x.data ≠ [] := by
        intro hcon
        rw [hcon] at h1
        cases h1
      refine ⟨hne, (normalizeL_fixed _ (hnorm x hx)).2, ?_, ?_⟩
      · rw [← hnorm x hx]
        exact normalizeL_headNotSpace _
      · rw [← hnorm x hx]
        exact normalizeL_lastNotSpace _
    set D : List (List Char) := (s :: S2).map String.data with hD
    have htext : (joinSpace (s :: S2)).data = recon D := rfl
    have hnormJoin : normalizeL (recon D) = recon D := by
      have hh : headNotSpace (recon D) = true :=
        recon_headNotSpace D (fun r hr => (hfacts r hr).1)
          fun r hr => (hfacts r hr).2.2.1
      have hl : lastNotSpace (recon D) = true :=
        recon_lastNotSpace D (fun r hr => (hfacts r hr).1)
          fun r hr => (hfacts r hr).2.2.2
      unfold normalizeL
      rw [stripL_eq_self _ hh hl]
      exact collapse_recon D (fun r hr => (hfacts r hr).1)
        (fun r hr => (hfacts r hr).2.1) (fun r hr => (hfacts r hr).2.2.1)
        fun r hr => (hfacts r hr).2.2.2
    have hrest : ∀ r ∈ S2.map String.data, r ≠ [] ∧ adjBoundary r = false ∧
        punctHead r.reverse = true ∧ isCap (r.headD 'x') = true := by
      intro r hr
      rw [List.mem_map] at hr
      obtain ⟨x, hx, rfl⟩ := hr
      refine ⟨(hfacts x.data ?_).1,
        hnob x (by simp [hx]), hend x (by simp [hx]), hcap x (by simpa using hx)⟩
      rw [hD]
      exact List.mem_map_of_mem String.data (List.mem_cons_of_mem s hx)
    have hrun : splitRun [] (recon D) = D ++ [[]] := by
      have hDrw : recon D = s.data ++ joinTail (S2.map String.data) := by
        rw [hD]
        simp only [List.map_cons]
        exact recon_cons_eq _ _
      rw [hDrw]
      have := splitRun_join (S2.map String.data) [] s.data
        (by simpa using hnob s (by simp))
        (by simpa using hend s (by simp))
        hrest
      rw [this]
      simp [hD]
    unfold split_sentences splitSentencesL
    rw [htext, hnormJoin, hrun]
    have hinv1 : headNotSpace (([] : List Char).reverse ++ recon D) = true := by
      simpa using recon_headNotSpace D (fun r hr => (hfacts r hr).1)
        fun r hr => (hfacts r hr).2.2.1
    have hinv2 : lastNotSpace (([] : List Char).reverse ++ recon D) = true := by
      simpa using recon_lastNotSpace D (fun r hr => (hfacts r hr).1)
        fun r hr => (hfacts r hr).2.2.2
    have hid := splitRun_strip_id [] (recon D) hinv1 hinv2
    rw [hrun] at hid
    have hmapid : (D ++ [[]]).map stripL = D ++ [[]] := by
      calc (D ++ [[]]).map stripL = (D ++ [[]]).map id :=
            List.map_congr_left fun f hf => hid f hf
        _ = D ++ [[]] := List.map_id _
    rw [hmapid, List.filter_append]
    have hfilD : D.filter (· ≠ []) = D :=
      List.filter_eq_self.mpr fun a ha => by
        simpa using (hfacts a ha).1
    rw [hfilD]
    have hfilnil : ([[]] : List (List Char)).filter (· ≠ []) = [] := rfl
    rw [hfilnil, List.append_nil, hD]
    rw [List.map_map]
    calc (s :: S2).map (List.asString ∘ String.data)
        = (s :: S2).map id := List.map_congr_left fun x _ => asString_data x
      _ = s :: S2 := List.map_id _

/-- Claim C8 (counterexample to the claim as stated): the sentence
"Hi. Bob." ends in terminal punctuation and there is no later sentence, yet
splitting the join of the one-element list does not return the list — the
internal boundary splits it in two. -/
theorem C8_counterexample :
    (∀ s ∈ (["Hi. Bob."] : List String), punctHead s.data.reverse = true) ∧
    (∀ s ∈ (["Hi. Bob."] : List String).tail, isCap (s.data.headD 'x') = true) ∧
    split_sentences (joinSpace ["Hi. Bob."]) = ["Hi.", "Bob."] ∧
    split_sentences (joinSpace ["Hi. Bob."]) ≠ ["Hi. Bob."] :=
  ⟨by decide, by decide, by decide, by decide⟩

/-- Witness for the amended C8 on a concrete two-sentence list. -/
theorem C8_witness :
    split_sentences (joinSpace ["The sky is blue.", "Grass is green."]) =
      ["The sky is blue.", "Grass is green."] :=
  C8_split_join_normalized ["The sky is blue.", "Grass is green."]
    (by decide) (by decide) (by decide) (by decide)

end Arghi
